import Mathlib

/-!
# midikeyboard: key-matrix scanner and press/release loop of `main.c`

Shallow embedding of `scanKeys` and of the body of the event loop of `main`.

* `uint8_t` / `uchar` values are natural numbers; every store of an `int`
  expression into a byte is written with an explicit `% 256` (`u8`).
* Arrays are memories `Nat → Nat` indexed from the start of the array, so a
  store outside the declared size stays visible.
* The hardware inputs are parameters: `pinc i j` is the value of `PINC` read
  when column `i` is driven and row bit `j` is tested, and `ready j` is the
  result of `usbInterruptIsReady()` at slot `j` of the loop.
* `usbSetInterrupt(midiMsg, iii)` appends the first `iii` bytes of `midiMsg`
  to the trace `sent`.
-/

namespace MidiKeyboard

/-- Truncation of an `int` value to a byte (`uint8_t`, `uchar`). -/
def u8 (n : Nat) : Nat := n % 256

/-- Array contents given by a list, zero elsewhere. -/
def bufOf (l : List Nat) : Nat → Nat := fun i => l.getD i 0

/-! ## `scanKeys` (main.c, lines 322-348) -/

/-- Local variables, ports and the pointed-to buffer of `scanKeys`, with the
traces of the stores `notes[count]=key` and of the writes to `PORTA`. -/
structure ScanState where
  notes : Nat → Nat
  count : Nat
  key : Nat
  porta : Nat
  portc : Nat
  stores : List (Nat × Nat)
  portaLog : List Nat

/-- Control flow out of a loop of `scanKeys`: fall through, or `return count`. -/
inductive Flow where
  | next : ScanState → Flow
  | ret : ScanState → Nat → Flow

/-- The loop `for(j=5;j>=0;j--)` of `scanKeys` for column `i`, over the
remaining values `js` of `j`. -/
def rowLoop (pinc : Nat → Nat → Nat) (size i : Nat) : List Nat → ScanState → Flow
  | [], s => Flow.next s
  | j :: js, s =>
    if pinc i j &&& (1 <<< j) ≠ 0 then
      let s1 : ScanState :=
        { s with notes := Function.update s.notes s.count s.key
                 stores := s.stores ++ [(s.count, s.key)] }
      let s2 : ScanState := { s1 with count := u8 (s1.count + 1) }
      if s2.count = size then
        let s3 : ScanState := { s2 with porta := 0x00, portaLog := s2.portaLog ++ [0x00] }
        Flow.ret s3 s3.count
      else
        rowLoop pinc size i js { s2 with key := u8 (s2.key + 255) }
    else
      rowLoop pinc size i js { s with key := u8 (s.key + 255) }

/-- The loop `for(i=0;i<8;i++)` of `scanKeys`, over the remaining values of `i`. -/
def colLoop (pinc : Nat → Nat → Nat) (size : Nat) : List Nat → ScanState → Flow
  | [], s => Flow.next s
  | i :: is, s =>
    let s1 : ScanState :=
      { s with porta := u8 (1 <<< i), portaLog := s.portaLog ++ [u8 (1 <<< i)] }
    match rowLoop pinc size i [5, 4, 3, 2, 1, 0] s1 with
    | Flow.ret s2 c => Flow.ret s2 c
    | Flow.next s2 => colLoop pinc size is s2

/-- The state of `scanKeys` when the outer loop is entered: `count=0`,
`key=48`, both ports cleared, `memset(notes,0,size)` done. -/
def scanInit (notes : Nat → Nat) (size : Nat) : ScanState :=
  { notes := fun a => if a < size then 0 else notes a
    count := 0
    key := 48
    porta := 0x00
    portc := 0x00
    stores := []
    portaLog := [0x00] }

/-- The function `scanKeys(notes, size)`: final state and returned count. -/
def scanKeys (pinc : Nat → Nat → Nat) (notes : Nat → Nat) (size : Nat) : ScanState × Nat :=
  match colLoop pinc size (List.range 8) (scanInit notes size) with
  | Flow.ret s c => (s, c)
  | Flow.next s =>
    let s1 : ScanState := { s with porta := 0x00, portaLog := s.portaLog ++ [0x00] }
    (s1, s1.count)

/-! ## The event loop of `main` (main.c, lines 371-427) -/

/-- Variables of `main` that the loop body reads or writes, the file-level
flag `sendEmptyFrame`, and the trace `sent` of packets handed to
`usbSetInterrupt`. -/
structure LoopState where
  keys : Nat → Nat
  lastKeys : Nat → Nat
  midiMsg : Nat → Nat
  iii : Nat
  sendEmptyFrame : Nat
  keyPressed : Nat
  keyReleased : Nat
  numbkeys : Nat
  sent : List (List Nat)

/-- The loop `for(k=0;k<10;k++)` (lines 381-386): clears `keyReleased` and
breaks at the first `k` with `lastKeys[j]==keys[k]`. -/
def releasedLoop (keys lastKeys : Nat → Nat) (j : Nat) : List Nat → Nat → Nat
  | [], keyReleased => keyReleased
  | k :: ks, keyReleased =>
    if lastKeys j = keys k then 0 else releasedLoop keys lastKeys j ks keyReleased

/-- The loop `for(l=0;l<10;l++)` (lines 387-392): clears `keyPressed` and
breaks at the first `l` with `keys[j]==lastKeys[l]`. -/
def pressedLoop (keys lastKeys : Nat → Nat) (j : Nat) : List Nat → Nat → Nat
  | [], keyPressed => keyPressed
  | l :: ls, keyPressed =>
    if keys j = lastKeys l then 0 else pressedLoop keys lastKeys j ls keyPressed

/-- The statement `midiMsg[iii++] = v`. -/
def put (s : LoopState) (v : Nat) : LoopState :=
  { s with midiMsg := Function.update s.midiMsg s.iii (u8 v), iii := u8 (s.iii + 1) }

/-- Lines 401-413: `iii = 0`, then the release record if `keyReleased`, then
the press record if `keyPressed`. -/
def buildMsg (s : LoopState) (j : Nat) : LoopState :=
  let s0 : LoopState := { s with iii := 0 }
  let s1 : LoopState :=
    if s0.keyReleased ≠ 0 then
      put (put (put (put s0 0x08) 0x80) (s0.lastKeys j + 11)) 0x00
    else s0
  if s1.keyPressed ≠ 0 then
    put (put (put (put s1 0x09) 0x90) (s1.keys j + 11)) 0x7f
  else s1

/-- Lines 414-418: set or clear `sendEmptyFrame`, then
`usbSetInterrupt(midiMsg, iii)`. -/
def submit (s : LoopState) : LoopState :=
  let s1 : LoopState := { s with sendEmptyFrame := if 8 = s.iii then 1 else 0 }
  { s1 with sent := s1.sent ++ [(List.range s1.iii).map s1.midiMsg] }

/-- The flags `keyPressed`, `keyReleased` as they stand at line 393 for slot `j`. -/
def detect (s : LoopState) (j : Nat) : LoopState :=
  let s1 : LoopState := { s with keyPressed := 1, keyReleased := 1 }
  let s2 : LoopState :=
    { s1 with keyReleased := releasedLoop s1.keys s1.lastKeys j (List.range 10) s1.keyReleased }
  { s2 with keyPressed := pressedLoop s2.keys s2.lastKeys j (List.range 10) s2.keyPressed }

/-- The body of `for(j=0;j<10;j++)` (lines 379-420) for slot `j`. -/
def slotStep (ready : Nat → Bool) (s : LoopState) (j : Nat) : LoopState :=
  let s1 := detect s j
  if ready j then
    if s1.keyPressed ||| s1.keyReleased ≠ 0 then
      submit (buildMsg s1 j)
    else s1
  else s1

/-- The loop of lines 378-422 over the ten slots. -/
def diffLoop (ready : Nat → Bool) (s : LoopState) : LoopState :=
  (List.range 10).foldl (slotStep ready) s

/-- The loop of lines 423-425: `lastKeys[j]=keys[j]` for the ten slots. -/
def copyLoop (s : LoopState) : LoopState :=
  (List.range 10).foldl
    (fun t j => { t with lastKeys := Function.update t.lastKeys j (t.keys j) }) s

/-- One iteration from after the call of `scanKeys` to the copy into
`lastKeys`, the current buffer being `s.keys`. -/
def detectIter (ready : Nat → Bool) (s : LoopState) : LoopState :=
  copyLoop (diffLoop ready s)

/-- One iteration of the event loop from `numbkeys=scanKeys(keys,10)` on. -/
def mainIter (pinc : Nat → Nat → Nat) (ready : Nat → Bool) (s : LoopState) : LoopState :=
  let r := scanKeys pinc s.keys 10
  detectIter ready { s with keys := r.1.notes, numbkeys := r.2 }

/-- The packets handed to `usbSetInterrupt` by `f` applied to `s`. -/
def submitted (f : LoopState → LoopState) (s : LoopState) : List (List Nat) :=
  (f s).sent.drop s.sent.length

/-! ## Reading the wire format back -/

/-- The 4-byte event records of a packet, in order. -/
def records : List Nat → List (List Nat)
  | a :: b :: c :: d :: rest => [a, b, c, d] :: records rest
  | _ => []

/-- The release record of key byte `k`. -/
def releaseRecord (k : Nat) : List Nat := [0x08, 0x80, u8 (k + 11), 0x00]

/-- The press record of key byte `k`. -/
def pressRecord (k : Nat) : List Nat := [0x09, 0x90, u8 (k + 11), 0x7f]

/-- The key bytes carried by the press records of a list of packets. -/
def pressedKeys (ps : List (List Nat)) : List Nat :=
  (ps.flatMap records).filterMap fun r =>
    match r with
    | [0x09, 0x90, n, 0x7f] => some (u8 (n + 245))
    | _ => none

/-- The key bytes carried by the release records of a list of packets. -/
def releasedKeys (ps : List (List Nat)) : List Nat :=
  (ps.flatMap records).filterMap fun r =>
    match r with
    | [0x08, 0x80, n, 0x00] => some (u8 (n + 245))
    | _ => none

/-- A loop state with the given current and previous buffers and nothing sent. -/
def mkState (keys lastKeys : Nat → Nat) : LoopState :=
  { keys := keys, lastKeys := lastKeys, midiMsg := fun _ => 0, iii := 0
    sendEmptyFrame := 0, keyPressed := 0, keyReleased := 0, numbkeys := 0, sent := [] }


/-! ## Definitions used to state and prove the properties -/

/-- The byte `v` is stored in one of the ten slots of `buf`. -/
def occurs (buf : Nat → Nat) (v : Nat) : Prop := ∃ i, i < 10 ∧ buf i = v

instance occursDecidable (buf : Nat → Nat) (v : Nat) : Decidable (occurs buf v) := by
  unfold occurs; infer_instance

/-- The packet built for slot `j`: release record of `lastKeys[j]` unless that
byte occurs in `keys`, then press record of `keys[j]` unless that byte occurs
in `lastKeys`. -/
def slotPacket (keys lastKeys : Nat → Nat) (j : Nat) : List Nat :=
  (if occurs keys (lastKeys j) then [] else releaseRecord (lastKeys j))
    ++ (if occurs lastKeys (keys j) then [] else pressRecord (keys j))

/-- The packets submitted for slot `j`. -/
def slotPackets (ready : Nat → Bool) (keys lastKeys : Nat → Nat) (j : Nat) : List (List Nat) :=
  if ready j = true ∧ ¬ (occurs keys (lastKeys j) ∧ occurs lastKeys (keys j)) then
    [slotPacket keys lastKeys j]
  else []

/-- The packets submitted in the ten slots of one iteration, in order. -/
def iterPackets (ready : Nat → Bool) (keys lastKeys : Nat → Nat) : List (List Nat) :=
  (List.range 10).flatMap (slotPackets ready keys lastKeys)

/-- The state on entry to slot `j` of the loop of lines 378-422 started in `s`. -/
def stateAt (ready : Nat → Bool) (s : LoopState) (j : Nat) : LoopState :=
  (List.range j).foldl (slotStep ready) s

/-- The value of `sendEmptyFrame` after the packets `ps` were submitted, `f`
being its value before: decided by the length of the last packet. -/
def flagAfter (f : Nat) (ps : List (List Nat)) : Nat :=
  match ps.getLast? with
  | none => f
  | some p => if p.length = 8 then 1 else 0

/-- The running count stays below `size`; a returned count is at most `size`. -/
def countOk (size : Nat) : Flow → Prop
  | Flow.next s => s.count < size
  | Flow.ret s c => c ≤ size ∧ s.count = c

/-- Two scanner states with the same `count` and `key` whose buffers agree
below `size`. -/
def scanAgree (size : Nat) (s t : ScanState) : Prop :=
  s.count = t.count ∧ s.key = t.key ∧ ∀ a, a < size → s.notes a = t.notes a

/-- Two control-flow results of the same kind with agreeing states and counts. -/
def flowAgree (size : Nat) : Flow → Flow → Prop
  | Flow.next s, Flow.next t => scanAgree size s t
  | Flow.ret s c, Flow.ret t d => scanAgree size s t ∧ c = d
  | _, _ => False

/-- Two loop states whose previous-key buffers agree on the ten slots and whose
`sendEmptyFrame` flags are equal. -/
def carried (s t : LoopState) : Prop :=
  (∀ i, i < 10 → s.lastKeys i = t.lastKeys i) ∧ s.sendEmptyFrame = t.sendEmptyFrame

/-- Pin readings with the ten positions of keys 48..39 closed: all six rows of
column 0 and rows 5..2 of column 1. -/
def tenKeysDown (i _j : Nat) : Nat := if i = 0 then 0x3f else if i = 1 then 0x3c else 0x00

/-- Pin readings with the nine positions of keys 48..40 closed. -/
def nineKeysDown (i _j : Nat) : Nat := if i = 0 then 0x3f else if i = 1 then 0x38 else 0x00

/-- Pin readings with only the position of key 48 closed (column 0, row bit 5). -/
def key48Down (i _j : Nat) : Nat := if i = 0 then 0x20 else 0x00

/-- Pin readings with no position closed. -/
def noKeyDown (_i _j : Nat) : Nat := 0x00

/-- The test `PINC&(1<<j)` of `scanKeys` at the position `p = (i, j)`. -/
def readsClosed (pinc : Nat → Nat → Nat) (p : Nat × Nat) : Bool :=
  decide (pinc p.1 p.2 &&& (1 <<< p.2) ≠ 0)

/-- The identifier of the matrix position `p = (i, j)`, column `i` and row
bit `j`. -/
def keyId (p : Nat × Nat) : Nat := 48 - (6 * p.1 + (5 - p.2))

/-- The 48 matrix positions in the order in which `scanKeys` visits them:
columns 0..7 ascending, within a column the row bits 5 down to 0. -/
def scanOrder : List (Nat × Nat) :=
  (List.range 8).flatMap fun i => [5, 4, 3, 2, 1, 0].map fun j => (i, j)

/-- The identifiers of the positions that read closed, in scan order. -/
def closedIds (pinc : Nat → Nat → Nat) : List Nat :=
  (scanOrder.filter (readsClosed pinc)).map keyId

/-- The values of `key` met at the closed positions of `ps`, `key` starting
at `k` and going down by one per position. -/
def idsFrom (pinc : Nat → Nat → Nat) : List (Nat × Nat) → Nat → List Nat
  | [], _ => []
  | p :: ps, k => (if readsClosed pinc p then [k] else []) ++ idsFrom pinc ps (k - 1)

/-- What a loop of `scanKeys` has reached once the closed positions met so far
carry the identifiers `all`: either it goes on with `count = all.length < size`
and `key = k`, or it has returned `size`; the buffer holds `all` zero-padded. -/
def scanPost (size : Nat) (all : List Nat) (k : Nat) : Flow → Prop
  | Flow.next s =>
    all.length < size ∧ s.count = all.length ∧ s.key = k ∧
      ∀ a, a < size → s.notes a = all.getD a 0
  | Flow.ret s c =>
    size ≤ all.length ∧ c = size ∧ s.count = size ∧
      ∀ a, a < size → s.notes a = all.getD a 0

/-- Pin readings with every position closed. -/
def allKeysDown (_i _j : Nat) : Nat := 0x3f

/-- Every store `notes[count]=key` made so far was at an index below `size`,
and so will the next one be while the loop goes on. -/
def storesOk (size : Nat) : Flow → Prop
  | Flow.next s => s.count < size ∧ ∀ p ∈ s.stores, p.1 < size
  | Flow.ret s _ => ∀ p ∈ s.stores, p.1 < size

/-! ## Lemmas -/

theorem releasedLoop_one (keys lastKeys : Nat → Nat) (j : Nat) (l : List Nat) :
    releasedLoop keys lastKeys j l 1 = if ∃ k ∈ l, lastKeys j = keys k then 0 else 1 := by
  induction l with
  | nil => simp [releasedLoop]
  | cons k ks ih =>
    by_cases h : lastKeys j = keys k
    · simp [releasedLoop, h]
    · simp [releasedLoop, h, ih]

theorem pressedLoop_one (keys lastKeys : Nat → Nat) (j : Nat) (l : List Nat) :
    pressedLoop keys lastKeys j l 1 = if ∃ k ∈ l, keys j = lastKeys k then 0 else 1 := by
  induction l with
  | nil => simp [pressedLoop]
  | cons k ks ih =>
    by_cases h : keys j = lastKeys k
    · simp [pressedLoop, h]
    · simp [pressedLoop, h, ih]

theorem range_map_four (f : Nat → Nat) : (List.range 4).map f = [f 0, f 1, f 2, f 3] := rfl
theorem range_map_eight (f : Nat → Nat) :
    (List.range 8).map f = [f 0, f 1, f 2, f 3, f 4, f 5, f 6, f 7] := rfl

theorem buildMsg_packet (s : LoopState) (j : Nat) :
    (List.range (buildMsg s j).iii).map (buildMsg s j).midiMsg
      = (if s.keyReleased ≠ 0 then releaseRecord (s.lastKeys j) else [])
        ++ (if s.keyPressed ≠ 0 then pressRecord (s.keys j) else []) := by
  by_cases hr : s.keyReleased = 0 <;> by_cases hp : s.keyPressed = 0 <;>
    simp [buildMsg, put, hr, hp, u8, range_map_four, range_map_eight, Function.update,
      releaseRecord, pressRecord]


theorem detect_keyReleased (s : LoopState) (j : Nat) :
    (detect s j).keyReleased = if occurs s.keys (s.lastKeys j) then 0 else 1 := by
  simp only [detect, releasedLoop_one, occurs, List.mem_range]
  congr 1
  apply propext
  constructor
  · rintro ⟨k, hk, h⟩; exact ⟨k, hk, h.symm⟩
  · rintro ⟨k, hk, h⟩; exact ⟨k, hk, h.symm⟩

theorem detect_keyPressed (s : LoopState) (j : Nat) :
    (detect s j).keyPressed = if occurs s.lastKeys (s.keys j) then 0 else 1 := by
  simp only [detect, pressedLoop_one, occurs, List.mem_range]
  congr 1
  apply propext
  constructor
  · rintro ⟨k, hk, h⟩; exact ⟨k, hk, h.symm⟩
  · rintro ⟨k, hk, h⟩; exact ⟨k, hk, h.symm⟩

@[simp] theorem detect_keys (s : LoopState) (j : Nat) : (detect s j).keys = s.keys := rfl
@[simp] theorem detect_lastKeys (s : LoopState) (j : Nat) : (detect s j).lastKeys = s.lastKeys := rfl
@[simp] theorem detect_sent (s : LoopState) (j : Nat) : (detect s j).sent = s.sent := rfl
@[simp] theorem detect_sendEmptyFrame (s : LoopState) (j : Nat) :
    (detect s j).sendEmptyFrame = s.sendEmptyFrame := rfl
@[simp] theorem detect_midiMsg (s : LoopState) (j : Nat) : (detect s j).midiMsg = s.midiMsg := rfl

theorem buildMsg_keys (s : LoopState) (j : Nat) : (buildMsg s j).keys = s.keys := by
  by_cases hr : s.keyReleased = 0 <;> by_cases hp : s.keyPressed = 0 <;>
    simp [buildMsg, put, hr, hp]
theorem buildMsg_lastKeys (s : LoopState) (j : Nat) : (buildMsg s j).lastKeys = s.lastKeys := by
  by_cases hr : s.keyReleased = 0 <;> by_cases hp : s.keyPressed = 0 <;>
    simp [buildMsg, put, hr, hp]
theorem buildMsg_sent (s : LoopState) (j : Nat) : (buildMsg s j).sent = s.sent := by
  by_cases hr : s.keyReleased = 0 <;> by_cases hp : s.keyPressed = 0 <;>
    simp [buildMsg, put, hr, hp]
theorem buildMsg_iii (s : LoopState) (j : Nat) :
    (buildMsg s j).iii = (if s.keyReleased ≠ 0 then 4 else 0) + (if s.keyPressed ≠ 0 then 4 else 0) := by
  by_cases hr : s.keyReleased = 0 <;> by_cases hp : s.keyPressed = 0 <;>
    simp [buildMsg, put, hr, hp, u8]


theorem slotStep_def (ready : Nat → Bool) (s : LoopState) (j : Nat) :
    slotStep ready s j =
      if ready j = true then
        if (detect s j).keyPressed ||| (detect s j).keyReleased ≠ 0 then
          submit (buildMsg (detect s j) j)
        else detect s j
      else detect s j := rfl

theorem slotStep_keys (ready : Nat → Bool) (s : LoopState) (j : Nat) :
    (slotStep ready s j).keys = s.keys := by
  rw [slotStep_def]
  split_ifs
  · show (buildMsg (detect s j) j).keys = s.keys
    rw [buildMsg_keys]; rfl
  · rfl
  · rfl

theorem slotStep_lastKeys (ready : Nat → Bool) (s : LoopState) (j : Nat) :
    (slotStep ready s j).lastKeys = s.lastKeys := by
  rw [slotStep_def]
  split_ifs
  · show (buildMsg (detect s j) j).lastKeys = s.lastKeys
    rw [buildMsg_lastKeys]; rfl
  · rfl
  · rfl

theorem slotStep_sent (ready : Nat → Bool) (s : LoopState) (j : Nat) :
    (slotStep ready s j).sent = s.sent ++ slotPackets ready s.keys s.lastKeys j := by
  unfold slotStep slotPackets slotPacket
  by_cases hr : ready j = true
  · by_cases h1 : occurs s.keys (s.lastKeys j) <;> by_cases h2 : occurs s.lastKeys (s.keys j) <;>
      simp [hr, h1, h2, detect_keyPressed, detect_keyReleased, submit, buildMsg_packet, buildMsg_sent]
  · simp [hr]

theorem slotStep_sendEmptyFrame (ready : Nat → Bool) (s : LoopState) (j : Nat) :
    (slotStep ready s j).sendEmptyFrame =
      if ready j = true ∧ ¬ (occurs s.keys (s.lastKeys j) ∧ occurs s.lastKeys (s.keys j)) then
        (if ¬ occurs s.keys (s.lastKeys j) ∧ ¬ occurs s.lastKeys (s.keys j) then 1 else 0)
      else s.sendEmptyFrame := by
  unfold slotStep
  by_cases hr : ready j = true
  · by_cases h1 : occurs s.keys (s.lastKeys j) <;> by_cases h2 : occurs s.lastKeys (s.keys j) <;>
      simp [hr, h1, h2, detect_keyPressed, detect_keyReleased, submit, buildMsg_iii]
  · simp [hr]


theorem foldl_slotStep_keys (ready : Nat → Bool) (l : List Nat) (s : LoopState) :
    (l.foldl (slotStep ready) s).keys = s.keys := by
  induction l generalizing s with
  | nil => rfl
  | cons j js ih => rw [List.foldl_cons, ih, slotStep_keys]

theorem foldl_slotStep_lastKeys (ready : Nat → Bool) (l : List Nat) (s : LoopState) :
    (l.foldl (slotStep ready) s).lastKeys = s.lastKeys := by
  induction l generalizing s with
  | nil => rfl
  | cons j js ih => rw [List.foldl_cons, ih, slotStep_lastKeys]

theorem foldl_slotStep_sent (ready : Nat → Bool) (l : List Nat) (s : LoopState) :
    (l.foldl (slotStep ready) s).sent
      = s.sent ++ l.flatMap (slotPackets ready s.keys s.lastKeys) := by
  induction l generalizing s with
  | nil => simp
  | cons j js ih =>
    rw [List.foldl_cons, ih, slotStep_sent, slotStep_keys, slotStep_lastKeys,
      List.flatMap_cons, List.append_assoc]

theorem stateAt_succ (ready : Nat → Bool) (s : LoopState) (j : Nat) :
    stateAt ready s (j + 1) = slotStep ready (stateAt ready s j) j := by
  simp [stateAt, List.range_succ]

theorem stateAt_keys (ready : Nat → Bool) (s : LoopState) (j : Nat) :
    (stateAt ready s j).keys = s.keys := foldl_slotStep_keys ready _ s

theorem stateAt_lastKeys (ready : Nat → Bool) (s : LoopState) (j : Nat) :
    (stateAt ready s j).lastKeys = s.lastKeys := foldl_slotStep_lastKeys ready _ s

theorem stateAt_succ_sent (ready : Nat → Bool) (s : LoopState) (j : Nat) :
    (stateAt ready s (j + 1)).sent
      = (stateAt ready s j).sent ++ slotPackets ready s.keys s.lastKeys j := by
  rw [stateAt_succ, slotStep_sent, stateAt_keys, stateAt_lastKeys]

theorem stateAt_succ_sendEmptyFrame (ready : Nat → Bool) (s : LoopState) (j : Nat) :
    (stateAt ready s (j + 1)).sendEmptyFrame =
      if ready j = true ∧ ¬ (occurs s.keys (s.lastKeys j) ∧ occurs s.lastKeys (s.keys j)) then
        (if ¬ occurs s.keys (s.lastKeys j) ∧ ¬ occurs s.lastKeys (s.keys j) then 1 else 0)
      else (stateAt ready s j).sendEmptyFrame := by
  rw [stateAt_succ, slotStep_sendEmptyFrame, stateAt_keys, stateAt_lastKeys]

theorem copyLoop_sent (s : LoopState) : (copyLoop s).sent = s.sent := by
  unfold copyLoop
  generalize List.range 10 = l
  induction l generalizing s with
  | nil => rfl
  | cons j js ih => rw [List.foldl_cons, ih]

theorem copyLoop_sendEmptyFrame (s : LoopState) :
    (copyLoop s).sendEmptyFrame = s.sendEmptyFrame := by
  unfold copyLoop
  generalize List.range 10 = l
  induction l generalizing s with
  | nil => rfl
  | cons j js ih => rw [List.foldl_cons, ih]

theorem copyLoop_keys (s : LoopState) : (copyLoop s).keys = s.keys := by
  unfold copyLoop
  generalize List.range 10 = l
  induction l generalizing s with
  | nil => rfl
  | cons j js ih => rw [List.foldl_cons, ih]

theorem detectIter_sent (ready : Nat → Bool) (s : LoopState) :
    (detectIter ready s).sent = s.sent ++ iterPackets ready s.keys s.lastKeys := by
  rw [detectIter, copyLoop_sent, diffLoop, foldl_slotStep_sent]; rfl

theorem submitted_detectIter (ready : Nat → Bool) (s : LoopState) :
    submitted (detectIter ready) s = iterPackets ready s.keys s.lastKeys := by
  rw [submitted, detectIter_sent, List.drop_left]

theorem flatMap_eq_nil_of_forall {α β : Type} (l : List α) (f : α → List β)
    (h : ∀ a ∈ l, f a = []) : l.flatMap f = [] := by
  induction l with
  | nil => rfl
  | cons a as ih =>
    rw [List.flatMap_cons, h a (List.mem_cons_self _ _), ih fun b hb => h b (List.mem_cons_of_mem _ hb)]
    rfl

theorem slotPackets_congr_ready (r1 r2 : Nat → Bool) (keys lastKeys : Nat → Nat) (j : Nat)
    (h : r1 j = r2 j) : slotPackets r1 keys lastKeys j = slotPackets r2 keys lastKeys j := by
  unfold slotPackets; rw [h]

theorem iterPackets_congr_ready (r1 r2 : Nat → Bool) (keys lastKeys : Nat → Nat)
    (h : ∀ j, j < 10 → r1 j = r2 j) : iterPackets r1 keys lastKeys = iterPackets r2 keys lastKeys := by
  unfold iterPackets
  have : ∀ l : List Nat, (∀ j ∈ l, j < 10) →
      l.flatMap (slotPackets r1 keys lastKeys) = l.flatMap (slotPackets r2 keys lastKeys) := by
    intro l hl
    induction l with
    | nil => rfl
    | cons a as ih =>
      rw [List.flatMap_cons, List.flatMap_cons, ih fun b hb => hl b (List.mem_cons_of_mem _ hb),
        slotPackets_congr_ready r1 r2 keys lastKeys a (h a (hl a (List.mem_cons_self _ _)))]
  exact this _ fun j hj => List.mem_range.mp hj

theorem flagAfter_append (f : Nat) (a b : List (List Nat)) :
    flagAfter f (a ++ b) = flagAfter (flagAfter f a) b := by
  rcases List.eq_nil_or_concat b with hb | ⟨b1, p, hb⟩
  · subst hb; simp [flagAfter]
  · subst hb
    simp [flagAfter, ← List.append_assoc, List.getLast?_concat]

theorem slotStep_flag (ready : Nat → Bool) (s : LoopState) (j : Nat) :
    (slotStep ready s j).sendEmptyFrame
      = flagAfter s.sendEmptyFrame (slotPackets ready s.keys s.lastKeys j) := by
  rw [slotStep_sendEmptyFrame]
  unfold slotPackets slotPacket
  by_cases hr : ready j = true <;> by_cases h1 : occurs s.keys (s.lastKeys j) <;>
    by_cases h2 : occurs s.lastKeys (s.keys j) <;>
    simp [hr, h1, h2, flagAfter, releaseRecord, pressRecord]

theorem foldl_slotStep_flag (ready : Nat → Bool) (l : List Nat) (s : LoopState) :
    (l.foldl (slotStep ready) s).sendEmptyFrame
      = flagAfter s.sendEmptyFrame (l.flatMap (slotPackets ready s.keys s.lastKeys)) := by
  induction l generalizing s with
  | nil => rfl
  | cons j js ih =>
    rw [List.foldl_cons, ih, slotStep_flag, slotStep_keys, slotStep_lastKeys,
      List.flatMap_cons, flagAfter_append]

theorem detectIter_flag (ready : Nat → Bool) (s : LoopState) :
    (detectIter ready s).sendEmptyFrame
      = flagAfter s.sendEmptyFrame (iterPackets ready s.keys s.lastKeys) := by
  rw [detectIter, copyLoop_sendEmptyFrame, diffLoop, foldl_slotStep_flag]; rfl

theorem range_ten : List.range 10 = [0, 1, 2, 3, 4, 5, 6, 7, 8, 9] := rfl

theorem u8_le (n : Nat) : u8 n ≤ n := Nat.mod_le _ _

theorem rowLoop_cons (pinc : Nat → Nat → Nat) (size i j : Nat) (js : List Nat) (s : ScanState) :
    rowLoop pinc size i (j :: js) s =
      if pinc i j &&& (1 <<< j) ≠ 0 then
        if u8 (s.count + 1) = size then
          Flow.ret
            { s with notes := Function.update s.notes s.count s.key
                     stores := s.stores ++ [(s.count, s.key)]
                     count := u8 (s.count + 1)
                     porta := 0x00
                     portaLog := s.portaLog ++ [0x00] }
            (u8 (s.count + 1))
        else
          rowLoop pinc size i js
            { s with notes := Function.update s.notes s.count s.key
                     stores := s.stores ++ [(s.count, s.key)]
                     count := u8 (s.count + 1)
                     key := u8 (s.key + 255) }
      else rowLoop pinc size i js { s with key := u8 (s.key + 255) } := rfl

theorem colLoop_cons (pinc : Nat → Nat → Nat) (size i : Nat) (cols : List Nat) (s : ScanState) :
    colLoop pinc size (i :: cols) s =
      match rowLoop pinc size i [5, 4, 3, 2, 1, 0]
          { s with porta := u8 (1 <<< i), portaLog := s.portaLog ++ [u8 (1 <<< i)] } with
      | Flow.ret s2 c => Flow.ret s2 c
      | Flow.next s2 => colLoop pinc size cols s2 := rfl

theorem rowLoop_countOk (pinc : Nat → Nat → Nat) (size i : Nat) (js : List Nat) (s : ScanState)
    (h : s.count < size) : countOk size (rowLoop pinc size i js s) := by
  induction js generalizing s with
  | nil => exact h
  | cons j js ih =>
    rw [rowLoop_cons]
    by_cases hp : pinc i j &&& (1 <<< j) ≠ 0
    · rw [if_pos hp]
      by_cases he : u8 (s.count + 1) = size
      · rw [if_pos he]
        exact ⟨le_of_eq he, rfl⟩
      · rw [if_neg he]
        apply ih
        have := u8_le (s.count + 1)
        show u8 (s.count + 1) < size
        omega
    · rw [if_neg hp]
      exact ih _ h

theorem colLoop_countOk (pinc : Nat → Nat → Nat) (size : Nat) (cols : List Nat) (s : ScanState)
    (h : s.count < size) : countOk size (colLoop pinc size cols s) := by
  induction cols generalizing s with
  | nil => exact h
  | cons i cols ih =>
    rw [colLoop_cons]
    have hr := rowLoop_countOk pinc size i [5, 4, 3, 2, 1, 0]
      { s with porta := u8 (1 <<< i), portaLog := s.portaLog ++ [u8 (1 <<< i)] } h
    generalize rowLoop pinc size i [5, 4, 3, 2, 1, 0]
      { s with porta := u8 (1 <<< i), portaLog := s.portaLog ++ [u8 (1 <<< i)] } = r at hr
    cases r with
    | next s2 => exact ih s2 hr
    | ret s2 c => exact hr

theorem scanKeys_le (pinc : Nat → Nat → Nat) (notes : Nat → Nat) (size : Nat) (h : 1 ≤ size) :
    (scanKeys pinc notes size).2 ≤ size := by
  unfold scanKeys
  have hc := colLoop_countOk pinc size (List.range 8) (scanInit notes size) h
  revert hc
  cases colLoop pinc size (List.range 8) (scanInit notes size) with
  | next s => intro hc; exact le_of_lt hc
  | ret s c => intro hc; exact hc.1

theorem rowLoop_agree (pinc : Nat → Nat → Nat) (size i : Nat) (js : List Nat)
    (s t : ScanState) (h : scanAgree size s t) :
    flowAgree size (rowLoop pinc size i js s) (rowLoop pinc size i js t) := by
  induction js generalizing s t with
  | nil => exact h
  | cons j js ih =>
    obtain ⟨hc, hk, hn⟩ := h
    rw [rowLoop_cons, rowLoop_cons, ← hc, ← hk]
    have hupd : ∀ a, a < size →
        Function.update s.notes s.count s.key a = Function.update t.notes s.count s.key a := by
      intro a ha
      by_cases hac : a = s.count
      · subst hac; simp
      · simp [Function.update, hac, hn a ha]
    by_cases hp : pinc i j &&& (1 <<< j) ≠ 0
    · rw [if_pos hp, if_pos hp]
      by_cases he : u8 (s.count + 1) = size
      · rw [if_pos he, if_pos he]
        exact ⟨⟨rfl, rfl, hupd⟩, rfl⟩
      · rw [if_neg he, if_neg he]
        exact ih _ _ ⟨rfl, rfl, hupd⟩
    · rw [if_neg hp, if_neg hp]
      exact ih _ _ ⟨rfl, rfl, hn⟩

theorem colLoop_agree (pinc : Nat → Nat → Nat) (size : Nat) (cols : List Nat)
    (s t : ScanState) (h : scanAgree size s t) :
    flowAgree size (colLoop pinc size cols s) (colLoop pinc size cols t) := by
  induction cols generalizing s t with
  | nil => exact h
  | cons i cols ih =>
    rw [colLoop_cons, colLoop_cons]
    have hr := rowLoop_agree pinc size i [5, 4, 3, 2, 1, 0]
      { s with porta := u8 (1 <<< i), portaLog := s.portaLog ++ [u8 (1 <<< i)] }
      { t with porta := u8 (1 <<< i), portaLog := t.portaLog ++ [u8 (1 <<< i)] } h
    generalize rowLoop pinc size i [5, 4, 3, 2, 1, 0]
      { s with porta := u8 (1 <<< i), portaLog := s.portaLog ++ [u8 (1 <<< i)] } = r1 at hr
    generalize rowLoop pinc size i [5, 4, 3, 2, 1, 0]
      { t with porta := u8 (1 <<< i), portaLog := t.portaLog ++ [u8 (1 <<< i)] } = r2 at hr
    cases r1 <;> cases r2
    · exact ih _ _ hr
    · exact hr.elim
    · exact hr.elim
    · exact hr

theorem scanKeys_notes_agree (pinc : Nat → Nat → Nat) (n1 n2 : Nat → Nat) (size a : Nat)
    (ha : a < size) :
    (scanKeys pinc n1 size).1.notes a = (scanKeys pinc n2 size).1.notes a := by
  unfold scanKeys
  have h0 : scanAgree size (scanInit n1 size) (scanInit n2 size) := by
    refine ⟨rfl, rfl, ?_⟩
    intro b hb
    simp [scanInit, hb]
  have hc := colLoop_agree pinc size (List.range 8) _ _ h0
  generalize colLoop pinc size (List.range 8) (scanInit n1 size) = r1 at hc
  generalize colLoop pinc size (List.range 8) (scanInit n2 size) = r2 at hc
  cases r1 <;> cases r2
  · exact hc.2.2 a ha
  · exact hc.elim
  · exact hc.elim
  · exact hc.1.2.2 a ha

theorem occurs_congr (b1 b2 : Nat → Nat) (v : Nat) (h : ∀ i, i < 10 → b1 i = b2 i) :
    occurs b1 v ↔ occurs b2 v := by
  constructor
  · rintro ⟨i, hi, e⟩; exact ⟨i, hi, by rw [← h i hi]; exact e⟩
  · rintro ⟨i, hi, e⟩; exact ⟨i, hi, by rw [h i hi]; exact e⟩

theorem slotPackets_congr (ready : Nat → Bool) (k1 k2 l1 l2 : Nat → Nat) (j : Nat) (hj : j < 10)
    (hk : ∀ i, i < 10 → k1 i = k2 i) (hl : ∀ i, i < 10 → l1 i = l2 i) :
    slotPackets ready k1 l1 j = slotPackets ready k2 l2 j := by
  unfold slotPackets slotPacket
  simp only [hk j hj, hl j hj, occurs_congr k1 k2 _ hk, occurs_congr l1 l2 _ hl]

theorem iterPackets_congr (ready : Nat → Bool) (k1 k2 l1 l2 : Nat → Nat)
    (hk : ∀ i, i < 10 → k1 i = k2 i) (hl : ∀ i, i < 10 → l1 i = l2 i) :
    iterPackets ready k1 l1 = iterPackets ready k2 l2 := by
  unfold iterPackets
  have : ∀ l : List Nat, (∀ j ∈ l, j < 10) →
      l.flatMap (slotPackets ready k1 l1) = l.flatMap (slotPackets ready k2 l2) := by
    intro l hl10
    induction l with
    | nil => rfl
    | cons a as ih =>
      rw [List.flatMap_cons, List.flatMap_cons, ih fun b hb => hl10 b (List.mem_cons_of_mem _ hb),
        slotPackets_congr ready k1 k2 l1 l2 a (hl10 a (List.mem_cons_self _ _)) hk hl]
  exact this _ fun j hj => List.mem_range.mp hj

theorem foldl_copy_keys (l : List Nat) (s : LoopState) :
    (l.foldl (fun t j => { t with lastKeys := Function.update t.lastKeys j (t.keys j) }) s).keys
      = s.keys := by
  induction l generalizing s with
  | nil => rfl
  | cons j js ih => rw [List.foldl_cons, ih]

theorem foldl_copy_lastKeys (l : List Nat) (s : LoopState) (i : Nat) :
    (l.foldl (fun t j => { t with lastKeys := Function.update t.lastKeys j (t.keys j) })
        s).lastKeys i
      = if i ∈ l then s.keys i else s.lastKeys i := by
  induction l generalizing s with
  | nil => simp
  | cons j js ih =>
    rw [List.foldl_cons, ih]
    by_cases hij : i = j
    · subst hij; simp
    · by_cases hmem : i ∈ js
      · simp [hmem]
      · simp [hmem, hij, Function.update]

theorem copyLoop_lastKeys (s : LoopState) (i : Nat) (hi : i < 10) :
    (copyLoop s).lastKeys i = s.keys i := by
  unfold copyLoop
  rw [foldl_copy_lastKeys, if_pos (List.mem_range.mpr hi)]

theorem detectIter_lastKeys (ready : Nat → Bool) (s : LoopState) (i : Nat) (hi : i < 10) :
    (detectIter ready s).lastKeys i = s.keys i := by
  rw [detectIter, copyLoop_lastKeys _ i hi, diffLoop, foldl_slotStep_keys]

theorem submitted_mainIter (pinc : Nat → Nat → Nat) (ready : Nat → Bool) (s : LoopState) :
    submitted (mainIter pinc ready) s
      = iterPackets ready (scanKeys pinc s.keys 10).1.notes s.lastKeys := by
  unfold submitted mainIter
  rw [detectIter_sent]
  exact List.drop_left _ _

theorem mainIter_flag (pinc : Nat → Nat → Nat) (ready : Nat → Bool) (s : LoopState) :
    (mainIter pinc ready s).sendEmptyFrame
      = flagAfter s.sendEmptyFrame
          (iterPackets ready (scanKeys pinc s.keys 10).1.notes s.lastKeys) := by
  unfold mainIter
  rw [detectIter_flag]

theorem mainIter_lastKeys (pinc : Nat → Nat → Nat) (ready : Nat → Bool) (s : LoopState)
    (i : Nat) (hi : i < 10) :
    (mainIter pinc ready s).lastKeys i = (scanKeys pinc s.keys 10).1.notes i := by
  unfold mainIter
  rw [detectIter_lastKeys _ _ i hi]

theorem mainIter_carried (pinc : Nat → Nat → Nat) (ready : Nat → Bool) (s1 s2 : LoopState)
    (h : carried s1 s2) :
    submitted (mainIter pinc ready) s1 = submitted (mainIter pinc ready) s2 ∧
    carried (mainIter pinc ready s1) (mainIter pinc ready s2) := by
  have hp : iterPackets ready (scanKeys pinc s1.keys 10).1.notes s1.lastKeys
      = iterPackets ready (scanKeys pinc s2.keys 10).1.notes s2.lastKeys :=
    iterPackets_congr ready _ _ _ _
      (fun i hi => scanKeys_notes_agree pinc s1.keys s2.keys 10 i hi) h.1
  refine ⟨?_, ?_, ?_⟩
  · rw [submitted_mainIter, submitted_mainIter, hp]
  · intro i hi
    rw [mainIter_lastKeys _ _ _ i hi, mainIter_lastKeys _ _ _ i hi]
    exact scanKeys_notes_agree pinc s1.keys s2.keys 10 i hi
  · rw [mainIter_flag, mainIter_flag, hp, h.2]

theorem u8_decode (k : Nat) (h : k < 256) : u8 (u8 (k + 11) + 245) = k := by
  unfold u8; omega

theorem mem_pressedKeys_slot (ready : Nat → Bool) (keys lastKeys : Nat → Nat) (j v : Nat)
    (h : v ∈ pressedKeys (slotPackets ready keys lastKeys j)) :
    v = u8 (u8 (keys j + 11) + 245) ∧ ¬ occurs lastKeys (keys j) := by
  unfold slotPackets slotPacket at h
  by_cases hr : ready j = true <;> by_cases h1 : occurs keys (lastKeys j) <;>
    by_cases h2 : occurs lastKeys (keys j) <;>
    simp [hr, h1, h2, pressedKeys, records, releaseRecord, pressRecord] at h
  all_goals exact ⟨h, h2⟩

theorem mem_releasedKeys_slot (ready : Nat → Bool) (keys lastKeys : Nat → Nat) (j v : Nat)
    (h : v ∈ releasedKeys (slotPackets ready keys lastKeys j)) :
    v = u8 (u8 (lastKeys j + 11) + 245) ∧ ¬ occurs keys (lastKeys j) := by
  unfold slotPackets slotPacket at h
  by_cases hr : ready j = true <;> by_cases h1 : occurs keys (lastKeys j) <;>
    by_cases h2 : occurs lastKeys (keys j) <;>
    simp [hr, h1, h2, releasedKeys, records, releaseRecord, pressRecord] at h
  all_goals exact ⟨h, h1⟩

theorem mem_pressedKeys_flatMap (l : List Nat) (g : Nat → List (List Nat)) (v : Nat)
    (h : v ∈ pressedKeys (l.flatMap g)) : ∃ j ∈ l, v ∈ pressedKeys (g j) := by
  unfold pressedKeys at h ⊢
  simp only [List.mem_filterMap, List.mem_flatMap] at h ⊢
  obtain ⟨r, ⟨p, ⟨j, hj, hp⟩, hr⟩, hv⟩ := h
  exact ⟨j, hj, r, ⟨p, hp, hr⟩, hv⟩

theorem mem_releasedKeys_flatMap (l : List Nat) (g : Nat → List (List Nat)) (v : Nat)
    (h : v ∈ releasedKeys (l.flatMap g)) : ∃ j ∈ l, v ∈ releasedKeys (g j) := by
  unfold releasedKeys at h ⊢
  simp only [List.mem_filterMap, List.mem_flatMap] at h ⊢
  obtain ⟨r, ⟨p, ⟨j, hj, hp⟩, hr⟩, hv⟩ := h
  exact ⟨j, hj, r, ⟨p, hp, hr⟩, hv⟩

/-! ## Claims -/

/-- C2. If the current buffer equals the previous buffer slot for slot, then
at every slot `j` in 0..9 of the iteration both `keyPressed` and `keyReleased`
are 0, no packet is submitted and `sendEmptyFrame` keeps its value, whatever
the transport readiness is. -/
theorem detector_idempotent (ready : Nat → Bool) (s : LoopState)
    (h : ∀ j, j < 10 → s.keys j = s.lastKeys j) :
    (∀ j, j < 10 →
      (detect (stateAt ready s j) j).keyPressed = 0 ∧
      (detect (stateAt ready s j) j).keyReleased = 0) ∧
    submitted (detectIter ready) s = [] ∧
    (detectIter ready s).sendEmptyFrame = s.sendEmptyFrame := by
  have hocc1 : ∀ j, j < 10 → occurs s.keys (s.lastKeys j) :=
    fun j hj => ⟨j, hj, h j hj⟩
  have hocc2 : ∀ j, j < 10 → occurs s.lastKeys (s.keys j) :=
    fun j hj => ⟨j, hj, (h j hj).symm⟩
  have hnil : ∀ j ∈ List.range 10, slotPackets ready s.keys s.lastKeys j = [] := by
    intro j hj
    have hj := List.mem_range.mp hj
    simp [slotPackets, hocc1 j hj, hocc2 j hj]
  refine ⟨?_, ?_, ?_⟩
  · intro j hj
    rw [detect_keyPressed, detect_keyReleased, stateAt_keys, stateAt_lastKeys,
      if_pos (hocc1 j hj), if_pos (hocc2 j hj)]
    exact ⟨rfl, rfl⟩
  · rw [submitted_detectIter]
    exact flatMap_eq_nil_of_forall _ _ hnil
  · rw [detectIter_flag]
    unfold iterPackets
    rw [flatMap_eq_nil_of_forall _ _ hnil]
    rfl

/-- Keys 48 and 47 held in both scans: nothing is submitted. -/
theorem detector_idempotent_witness :
    (∀ j, j < 10 → (mkState (bufOf [48, 47]) (bufOf [48, 47])).keys j
        = (mkState (bufOf [48, 47]) (bufOf [48, 47])).lastKeys j) ∧
    submitted (detectIter fun _ => true) (mkState (bufOf [48, 47]) (bufOf [48, 47])) = [] :=
  ⟨fun _ _ => rfl,
   (detector_idempotent (fun _ => true) (mkState (bufOf [48, 47]) (bufOf [48, 47]))
      (fun _ _ => rfl)).2.1⟩

/-- C3. For every key byte, the packet handed to `usbSetInterrupt` consists of
the release record `[0x08, 0x80, (lastKeys[j] + 11) mod 256, 0x00]` when
`keyReleased` is set, followed by the press record
`[0x09, 0x90, (keys[j] + 11) mod 256, 0x7F]` when `keyPressed` is set: note-off
with velocity 0, note-on with velocity 127, the same note offset 11. -/
theorem record_encoding (s : LoopState) (j : Nat) :
    (submit (buildMsg s j)).sent = s.sent ++
      [(if s.keyReleased ≠ 0 then [0x08, 0x80, (s.lastKeys j + 11) % 256, 0x00] else [])
        ++ (if s.keyPressed ≠ 0 then [0x09, 0x90, (s.keys j + 11) % 256, 0x7F] else [])] := by
  have h := buildMsg_packet s j
  simp only [releaseRecord, pressRecord, u8] at h
  simp only [submit, buildMsg_sent, h]


/-- A pure press and a pure release at slot 0, key byte 5: note byte 16. -/
theorem encoding_example_key5 :
    (submit (buildMsg { mkState (bufOf [5]) (bufOf [5]) with keyPressed := 1 } 0)).sent
      = [[0x09, 0x90, 16, 0x7F]] ∧
    (submit (buildMsg { mkState (bufOf [5]) (bufOf [5]) with keyReleased := 1 } 0)).sent
      = [[0x08, 0x80, 16, 0x00]] := by
  constructor <;> decide

/-- C8 (Scenario 1, single press). For every key `k` in 1..48, with the previous
buffer all zero, the current buffer `[k,0,...,0]` and the transport ready at
every slot, the iteration submits exactly one packet, the 4 bytes
`[0x09, 0x90, k+11, 0x7F]`, and `sendEmptyFrame` is 0 afterwards. -/
theorem single_press (ready : Nat → Bool) (s : LoopState) (k : Nat)
    (hk1 : 1 ≤ k) (hk2 : k ≤ 48) (hr : ∀ j, j < 10 → ready j = true) :
    submitted (detectIter ready) { s with keys := bufOf [k], lastKeys := bufOf [] }
      = [[0x09, 0x90, k + 11, 0x7F]] ∧
    (detectIter ready { s with keys := bufOf [k], lastKeys := bufOf [] }).sendEmptyFrame = 0 := by
  have h1 : occurs (bufOf [k]) 0 := ⟨1, by norm_num, rfl⟩
  have h2 : ¬ occurs (bufOf []) k := by
    rintro ⟨i, _, hi⟩
    simp [bufOf] at hi
    omega
  have h3 : occurs (bufOf []) 0 := ⟨0, by norm_num, rfl⟩
  have hu : u8 (k + 11) = k + 11 := Nat.mod_eq_of_lt (by omega)
  have hp : iterPackets ready (bufOf [k]) (bufOf []) = [[0x09, 0x90, k + 11, 0x7F]] := by
    rw [iterPackets_congr_ready ready (fun _ => true) _ _ hr]
    simp [iterPackets, range_ten, slotPackets, slotPacket, bufOf, h1, h2, h3, pressRecord, hu]
  constructor
  · rw [submitted_detectIter]; exact hp
  · rw [detectIter_flag]
    show flagAfter _ (iterPackets ready (bufOf [k]) (bufOf [])) = 0
    rw [hp]; rfl


/-- Key 5 newly down gives `[0x09,0x90,16,0x7F]`. -/
theorem single_press_witness :
    submitted (detectIter fun _ => true) (mkState (bufOf [5]) (bufOf []))
      = [[0x09, 0x90, 16, 0x7F]] ∧
    (detectIter (fun _ => true) (mkState (bufOf [5]) (bufOf []))).sendEmptyFrame = 0 :=
  single_press (fun _ => true) (mkState (bufOf []) (bufOf [])) 5 (by decide) (by decide)
    (fun _ _ => rfl)

/-- C5 (capacity of the scanner). For every capacity argument `size >= 1` and
every pin reading, the count returned by `scanKeys(notes, size)` is at most
`size`; in particular the call `scanKeys(keys,10)` of the loop returns at
most 10. -/
theorem scanner_capacity (pinc : Nat → Nat → Nat) (notes : Nat → Nat) (size : Nat)
    (h : 1 ≤ size) :
    (scanKeys pinc notes size).2 ≤ size ∧ (scanKeys pinc notes 10).2 ≤ 10 :=
  ⟨scanKeys_le pinc notes size h, scanKeys_le pinc notes 10 (by norm_num)⟩


/-- All 48 positions closed, capacity 3: the scan returns 3. -/
theorem scanner_capacity_witness :
    1 ≤ 3 ∧ (scanKeys (fun _ _ => 0x3f) (bufOf []) 3).2 = 3 ∧
    (scanKeys (fun _ _ => 0x3f) (bufOf []) 3).2 ≤ 3 ∧
    (scanKeys (fun _ _ => 0x3f) (bufOf []) 10).2 ≤ 10 :=
  ⟨by decide, by decide, scanner_capacity (fun _ _ => 0x3f) (bufOf []) 3 (by decide)⟩

/-- C9 (Scenario 2, single release). For every key `k` in 1..48, with the
previous buffer `[k,0,...,0]`, the current buffer all zero and the transport
ready at every slot, the iteration submits exactly one packet, the 4 bytes
`[0x08, 0x80, k+11, 0x00]`, and `sendEmptyFrame` is 0 afterwards. -/
theorem single_release (ready : Nat → Bool) (s : LoopState) (k : Nat)
    (hk1 : 1 ≤ k) (hk2 : k ≤ 48) (hr : ∀ j, j < 10 → ready j = true) :
    submitted (detectIter ready) { s with keys := bufOf [], lastKeys := bufOf [k] }
      = [[0x08, 0x80, k + 11, 0x00]] ∧
    (detectIter ready { s with keys := bufOf [], lastKeys := bufOf [k] }).sendEmptyFrame = 0 := by
  have h1 : occurs (bufOf [k]) 0 := ⟨1, by norm_num, rfl⟩
  have h2 : ¬ occurs (bufOf []) k := by
    rintro ⟨i, _, hi⟩
    simp [bufOf] at hi
    omega
  have h3 : occurs (bufOf []) 0 := ⟨0, by norm_num, rfl⟩
  have hu : u8 (k + 11) = k + 11 := Nat.mod_eq_of_lt (by omega)
  have hp : iterPackets ready (bufOf []) (bufOf [k]) = [[0x08, 0x80, k + 11, 0x00]] := by
    rw [iterPackets_congr_ready ready (fun _ => true) _ _ hr]
    simp [iterPackets, range_ten, slotPackets, slotPacket, bufOf, h1, h2, h3, releaseRecord, hu]
  constructor
  · rw [submitted_detectIter]; exact hp
  · rw [detectIter_flag]
    show flagAfter _ (iterPackets ready (bufOf []) (bufOf [k])) = 0
    rw [hp]; rfl

/-- Key 5 let go gives `[0x08,0x80,16,0x00]`. -/
theorem single_release_witness :
    submitted (detectIter fun _ => true) (mkState (bufOf []) (bufOf [5]))
      = [[0x08, 0x80, 16, 0x00]] ∧
    (detectIter (fun _ => true) (mkState (bufOf []) (bufOf [5]))).sendEmptyFrame = 0 :=
  single_release (fun _ => true) (mkState (bufOf []) (bufOf [])) 5 (by decide) (by decide)
    (fun _ _ => rfl)

/-- C4 (framing). Whenever slot `j` of the loop submits a packet `p`, then right
after the submission `sendEmptyFrame` is 1 if `p` has length 8 and 0 if `p` has
length 4, whatever the flag was before. -/
theorem framing_flag (ready : Nat → Bool) (s : LoopState) (j : Nat) (p : List Nat)
    (h : (stateAt ready s (j + 1)).sent = (stateAt ready s j).sent ++ [p]) :
    (p.length = 8 → (stateAt ready s (j + 1)).sendEmptyFrame = 1) ∧
    (p.length = 4 → (stateAt ready s (j + 1)).sendEmptyFrame = 0) := by
  rw [stateAt_succ_sent] at h
  have hp := List.append_cancel_left h
  rw [stateAt_succ_sendEmptyFrame]
  unfold slotPackets slotPacket at hp
  by_cases hr : ready j = true <;> by_cases h1 : occurs s.keys (s.lastKeys j) <;>
    by_cases h2 : occurs s.lastKeys (s.keys j) <;>
    simp [hr, h1, h2, releaseRecord, pressRecord] at hp ⊢ <;>
    subst hp <;> simp

/-- An 8-byte packet sets the flag from 0, a 4-byte
packet clears it from 1. -/
theorem framing_flag_witness :
    ((stateAt (fun _ => true) (mkState (bufOf [7]) (bufOf [5])) 1).sent
        = (stateAt (fun _ => true) (mkState (bufOf [7]) (bufOf [5])) 0).sent
            ++ [[0x08, 0x80, 16, 0x00, 0x09, 0x90, 18, 0x7F]] ∧
      (mkState (bufOf [7]) (bufOf [5])).sendEmptyFrame = 0 ∧
      (stateAt (fun _ => true) (mkState (bufOf [7]) (bufOf [5])) 1).sendEmptyFrame = 1) ∧
    ((stateAt (fun _ => true) { mkState (bufOf [5]) (bufOf []) with sendEmptyFrame := 1 } 1).sent
        = (stateAt (fun _ => true)
            { mkState (bufOf [5]) (bufOf []) with sendEmptyFrame := 1 } 0).sent
            ++ [[0x09, 0x90, 16, 0x7F]] ∧
      (stateAt (fun _ => true)
        { mkState (bufOf [5]) (bufOf []) with sendEmptyFrame := 1 } 1).sendEmptyFrame = 0) :=
  ⟨⟨by decide, rfl,
    (framing_flag (fun _ => true) (mkState (bufOf [7]) (bufOf [5])) 0
      [0x08, 0x80, 16, 0x00, 0x09, 0x90, 18, 0x7F] (by decide)).1 rfl⟩,
   ⟨by decide,
    (framing_flag (fun _ => true) { mkState (bufOf [5]) (bufOf []) with sendEmptyFrame := 1 } 0
      [0x09, 0x90, 16, 0x7F] (by decide)).2 rfl⟩⟩

/-- C7 (Scenario 3, combined packet). If the transport is ready at slot `j`,
`lastKeys[j]` occurs nowhere in `keys` and `keys[j]` occurs nowhere in
`lastKeys`, then slot `j` submits exactly one packet, the 8 bytes
`[0x08, 0x80, lastKeys[j]+11, 0x00, 0x09, 0x90, keys[j]+11, 0x7F]` (release
record, then press record, the sums stored as bytes), and `sendEmptyFrame` is
then 1. -/
theorem combined_packet (ready : Nat → Bool) (s : LoopState) (j : Nat)
    (hr : ready j = true)
    (h1 : ¬ occurs s.keys (s.lastKeys j)) (h2 : ¬ occurs s.lastKeys (s.keys j)) :
    (stateAt ready s (j + 1)).sent = (stateAt ready s j).sent ++
      [[0x08, 0x80, (s.lastKeys j + 11) % 256, 0x00,
        0x09, 0x90, (s.keys j + 11) % 256, 0x7F]] ∧
    (stateAt ready s (j + 1)).sendEmptyFrame = 1 := by
  rw [stateAt_succ_sent, stateAt_succ_sendEmptyFrame]
  simp [slotPackets, slotPacket, hr, h1, h2, releaseRecord, pressRecord, u8]


/-- Previous key 5 and current key 7 in slot 0
give `[0x08,0x80,16,0x00,0x09,0x90,18,0x7F]`. -/
theorem combined_packet_witness :
    (¬ occurs (bufOf [7]) 5 ∧ ¬ occurs (bufOf [5]) 7) ∧
    (stateAt (fun _ => true) (mkState (bufOf [7]) (bufOf [5])) 1).sent
      = [[0x08, 0x80, 16, 0x00, 0x09, 0x90, 18, 0x7F]] ∧
    (stateAt (fun _ => true) (mkState (bufOf [7]) (bufOf [5])) 1).sendEmptyFrame = 1 :=
  ⟨⟨by decide, by decide⟩,
   combined_packet (fun _ => true) (mkState (bufOf [7]) (bufOf [5])) 0 rfl
     (by decide) (by decide)⟩

/-- C10 (backpressure). At every slot `j`: if the transport is ready and
`keyPressed|keyReleased` is nonzero, one packet is submitted, and otherwise none
is; when the transport is not ready the trace of packets, `sendEmptyFrame`,
`lastKeys` and `midiMsg` are left as they were; and nothing else is carried
over for a retry: two states that agree on `lastKeys[0..9]` and on
`sendEmptyFrame` submit the same packets in the next iteration and agree again
afterwards. -/
theorem backpressure (ready : Nat → Bool) (s : LoopState) (j : Nat) :
    ((ready j = true ∧
        (detect (stateAt ready s j) j).keyPressed |||
          (detect (stateAt ready s j) j).keyReleased ≠ 0) →
      ∃ p, (stateAt ready s (j + 1)).sent = (stateAt ready s j).sent ++ [p]) ∧
    (¬ (ready j = true ∧
        (detect (stateAt ready s j) j).keyPressed |||
          (detect (stateAt ready s j) j).keyReleased ≠ 0) →
      (stateAt ready s (j + 1)).sent = (stateAt ready s j).sent) ∧
    (ready j = false →
      (stateAt ready s (j + 1)).sent = (stateAt ready s j).sent ∧
      (stateAt ready s (j + 1)).sendEmptyFrame = (stateAt ready s j).sendEmptyFrame ∧
      (stateAt ready s (j + 1)).lastKeys = (stateAt ready s j).lastKeys ∧
      (stateAt ready s (j + 1)).midiMsg = (stateAt ready s j).midiMsg) ∧
    (∀ (pinc : Nat → Nat → Nat) (r : Nat → Bool) (s1 s2 : LoopState), carried s1 s2 →
      submitted (mainIter pinc r) s1 = submitted (mainIter pinc r) s2 ∧
      carried (mainIter pinc r s1) (mainIter pinc r s2)) := by
  refine ⟨?_, ?_, ?_, fun pinc r s1 s2 h => mainIter_carried pinc r s1 s2 h⟩
  · rintro ⟨hr, hf⟩
    rw [stateAt_succ, slotStep_def, if_pos hr, if_pos hf]
    refine ⟨(List.range (buildMsg (detect (stateAt ready s j) j) j).iii).map
      (buildMsg (detect (stateAt ready s j) j) j).midiMsg, ?_⟩
    rw [submit]; simp only [buildMsg_sent, detect_sent]
  · intro hn
    rw [stateAt_succ, slotStep_def]
    by_cases hr : ready j = true
    · rw [if_pos hr, if_neg (fun hf => hn ⟨hr, hf⟩)]; rfl
    · rw [if_neg hr]; rfl
  · intro hr
    have hr2 : ¬ ready j = true := by simp [hr]
    rw [stateAt_succ, slotStep_def, if_neg hr2]
    exact ⟨rfl, rfl, rfl, rfl⟩


/-- Key 5 newly down, transport not ready at slot 0:
the flags are raised, nothing is submitted and the flag keeps its value 1. -/
theorem backpressure_witness :
    (detect (mkState (bufOf [5]) (bufOf [])) 0).keyPressed = 1 ∧
    (stateAt (fun _ => false) { mkState (bufOf [5]) (bufOf []) with sendEmptyFrame := 1 } 1).sent
      = [] ∧
    (stateAt (fun _ => false)
      { mkState (bufOf [5]) (bufOf []) with sendEmptyFrame := 1 } 1).sendEmptyFrame = 1 :=
  ⟨by decide,
   ((backpressure (fun _ => false)
      { mkState (bufOf [5]) (bufOf []) with sendEmptyFrame := 1 } 0).2.2.1 rfl).1,
   ((backpressure (fun _ => false)
      { mkState (bufOf [5]) (bufOf []) with sendEmptyFrame := 1 } 0).2.2.1 rfl).2.1⟩

/-- C6 (a key present in both buffers yields no event). For byte buffers `keys`
and `lastKeys` and every value `v` stored in some slot of `keys` and in some
(possibly different) slot of `lastKeys`, no packet submitted in the iteration
carries a press record or a release record of `v`. -/
theorem shared_key_no_event (ready : Nat → Bool) (s : LoopState) (v : Nat)
    (hk : ∀ i, i < 10 → s.keys i < 256) (hl : ∀ i, i < 10 → s.lastKeys i < 256)
    (h1 : occurs s.keys v) (h2 : occurs s.lastKeys v) :
    v ∉ pressedKeys (submitted (detectIter ready) s) ∧
    v ∉ releasedKeys (submitted (detectIter ready) s) := by
  rw [submitted_detectIter]
  constructor
  · intro hv
    obtain ⟨j, hj, hm⟩ := mem_pressedKeys_flatMap _ _ v hv
    obtain ⟨e, hn⟩ := mem_pressedKeys_slot ready s.keys s.lastKeys j v hm
    rw [u8_decode _ (hk j (List.mem_range.mp hj))] at e
    exact hn (e ▸ h2)
  · intro hv
    obtain ⟨j, hj, hm⟩ := mem_releasedKeys_flatMap _ _ v hv
    obtain ⟨e, hn⟩ := mem_releasedKeys_slot ready s.keys s.lastKeys j v hm
    rw [u8_decode _ (hl j (List.mem_range.mp hj))] at e
    exact hn (e ▸ h1)

/-- Key 45 sits in slot 1 of the current
buffer and in slot 0 of the previous one. -/
theorem shared_key_no_event_witness :
    (occurs (bufOf [48, 45]) 45 ∧ occurs (bufOf [45]) 45) ∧
    45 ∉ pressedKeys (submitted (detectIter fun _ => true)
      (mkState (bufOf [48, 45]) (bufOf [45]))) ∧
    45 ∉ releasedKeys (submitted (detectIter fun _ => true)
      (mkState (bufOf [48, 45]) (bufOf [45]))) :=
  ⟨⟨by decide, by decide⟩,
   shared_key_no_event (fun _ => true) (mkState (bufOf [48, 45]) (bufOf [45])) 45
     (by decide) (by decide) (by decide) (by decide)⟩

/-- C1 (transition detection against set difference, at capacity). Ten keys
48..39 held in the previous scan, key 39 let go in the current one: the scanner
stores `[48,...,40,0]`, and slot 9 submits the release record of key 39 followed
by a press record built from the padding byte 0 (note 11), although the set
difference current minus previous is empty. -/
theorem phantom_press_at_capacity :
    (List.range 10).map
        (mainIter tenKeysDown (fun _ => true) (mkState (bufOf []) (bufOf []))).lastKeys
      = [48, 47, 46, 45, 44, 43, 42, 41, 40, 39] ∧
    (List.range 10).map (scanKeys nineKeysDown (bufOf []) 10).1.notes
      = [48, 47, 46, 45, 44, 43, 42, 41, 40, 0] ∧
    submitted (mainIter nineKeysDown fun _ => true)
        (mainIter tenKeysDown (fun _ => true) (mkState (bufOf []) (bufOf [])))
      = [[0x08, 0x80, 50, 0x00, 0x09, 0x90, 11, 0x7F]] ∧
    pressedKeys (submitted (mainIter nineKeysDown fun _ => true)
        (mainIter tenKeysDown (fun _ => true) (mkState (bufOf []) (bufOf [])))) = [0] ∧
    [48, 47, 46, 45, 44, 43, 42, 41, 40].filter
        (fun k => decide (k ∉ [48, 47, 46, 45, 44, 43, 42, 41, 40, 39])) = [] := by
  refine ⟨?_, ?_, ?_, ?_, ?_⟩ <;> decide

theorem iterPackets_eq_nil_of_agree (ready : Nat → Bool) (keys lastKeys : Nat → Nat)
    (h : ∀ j, j < 10 → keys j = lastKeys j) : iterPackets ready keys lastKeys = [] := by
  unfold iterPackets
  apply flatMap_eq_nil_of_forall
  intro j hj
  have hj := List.mem_range.mp hj
  have h1 : occurs keys (lastKeys j) := ⟨j, hj, h j hj⟩
  have h2 : occurs lastKeys (keys j) := ⟨j, hj, (h j hj).symm⟩
  simp [slotPackets, h1, h2]

theorem detectIter_keys (ready : Nat → Bool) (s : LoopState) :
    (detectIter ready s).keys = s.keys := by
  rw [detectIter, copyLoop_keys, diffLoop, foldl_slotStep_keys]

theorem mainIter_keys (pinc : Nat → Nat → Nat) (ready : Nat → Bool) (s : LoopState) :
    (mainIter pinc ready s).keys = (scanKeys pinc s.keys 10).1.notes := by
  unfold mainIter
  rw [detectIter_keys]

theorem slotPackets_length_le (ready : Nat → Bool) (keys lastKeys : Nat → Nat) (j : Nat) :
    (slotPackets ready keys lastKeys j).length ≤ 1 := by
  unfold slotPackets
  split_ifs <;> simp

theorem flatMap_length_le (l : List Nat) (g : Nat → List (List Nat))
    (h : ∀ j, (g j).length ≤ 1) : (l.flatMap g).length ≤ l.length := by
  induction l with
  | nil => simp
  | cons a as ih =>
    rw [List.flatMap_cons, List.length_append, List.length_cons]
    have := h a
    omega

theorem mem_slotPackets_length (ready : Nat → Bool) (keys lastKeys : Nat → Nat) (j : Nat)
    (p : List Nat) (h : p ∈ slotPackets ready keys lastKeys j) :
    p.length = 4 ∨ p.length = 8 := by
  unfold slotPackets slotPacket at h
  by_cases hr : ready j = true <;> by_cases h1 : occurs keys (lastKeys j) <;>
    by_cases h2 : occurs lastKeys (keys j) <;>
    simp [hr, h1, h2, releaseRecord, pressRecord] at h <;> subst h <;> simp

/-- C11 (no retry after a dropped event). At the end of every iteration
`lastKeys[j] = keys[j]` for all ten slots, whatever the transport readiness
was; so when the next scan fills the same buffer contents, the next iteration
submits no packet, even if the transport was never ready in the first one and
is ready throughout the second. -/
theorem no_retry (pinc1 pinc2 : Nat → Nat → Nat) (r1 r2 : Nat → Bool) (s : LoopState)
    (h : ∀ i, i < 10 →
      (scanKeys pinc2 (mainIter pinc1 r1 s).keys 10).1.notes i
        = (scanKeys pinc1 s.keys 10).1.notes i) :
    (∀ j, j < 10 → (mainIter pinc1 r1 s).lastKeys j = (mainIter pinc1 r1 s).keys j) ∧
    submitted (mainIter pinc2 r2) (mainIter pinc1 r1 s) = [] := by
  constructor
  · intro j hj
    rw [mainIter_lastKeys _ _ _ j hj, mainIter_keys]
  · rw [submitted_mainIter]
    apply iterPackets_eq_nil_of_agree
    intro j hj
    rw [h j hj, mainIter_lastKeys _ _ _ j hj]

/-- Key 48 goes down while the transport is not ready, and stays down: the
press is dropped in the first iteration and the second one, with the
transport ready, submits nothing. -/
theorem no_retry_witness :
    submitted (mainIter key48Down fun _ => true) (mkState (bufOf []) (bufOf []))
      = [[0x09, 0x90, 59, 0x7F]] ∧
    submitted (mainIter key48Down fun _ => false) (mkState (bufOf []) (bufOf [])) = [] ∧
    submitted (mainIter key48Down fun _ => true)
      (mainIter key48Down (fun _ => false) (mkState (bufOf []) (bufOf []))) = [] :=
  ⟨by decide, by decide,
   (no_retry key48Down key48Down (fun _ => false) (fun _ => true)
      (mkState (bufOf []) (bufOf [])) (by decide)).2⟩

/-- C12 (packet sizes). For all buffers and every readiness pattern, every
packet handed to `usbSetInterrupt` in an iteration has length 4 or 8, every
slot submits no packet or exactly one, and an iteration submits at most 10. -/
theorem packet_sizes (ready : Nat → Bool) (s : LoopState) :
    (∀ p, p ∈ submitted (detectIter ready) s → p.length = 4 ∨ p.length = 8) ∧
    (∀ j, (stateAt ready s (j + 1)).sent = (stateAt ready s j).sent ∨
      ∃ p, (stateAt ready s (j + 1)).sent = (stateAt ready s j).sent ++ [p]) ∧
    (submitted (detectIter ready) s).length ≤ 10 := by
  refine ⟨?_, ?_, ?_⟩
  · intro p hp
    rw [submitted_detectIter, iterPackets, List.mem_flatMap] at hp
    obtain ⟨j, _, hj⟩ := hp
    exact mem_slotPackets_length ready s.keys s.lastKeys j p hj
  · intro j
    rw [stateAt_succ_sent]
    unfold slotPackets
    split_ifs
    · exact Or.inr ⟨_, rfl⟩
    · exact Or.inl (List.append_nil _)
  · rw [submitted_detectIter, iterPackets]
    exact flatMap_length_le (List.range 10) _ (slotPackets_length_le ready s.keys s.lastKeys)

/-- Ten keys go down at once from nothing: ten packets, each of 8 bytes. -/
theorem packet_sizes_witness :
    (submitted (detectIter fun _ => true)
      (mkState (bufOf [48, 47, 46, 45, 44, 43, 42, 41, 40, 39]) (bufOf []))).map List.length
      = [8, 8, 8, 8, 8, 8, 8, 8, 8, 8] ∧
    (submitted (detectIter fun _ => true)
      (mkState (bufOf [48, 47, 46, 45, 44, 43, 42, 41, 40, 39]) (bufOf []))).length ≤ 10 :=
  ⟨by decide,
   (packet_sizes (fun _ => true)
      (mkState (bufOf [48, 47, 46, 45, 44, 43, 42, 41, 40, 39]) (bufOf []))).2.2⟩

/-- C14 (pressed and released are disjoint). For byte buffers `keys` and
`lastKeys` and every readiness pattern, no value `v` is both the key of a
press record and the key of a release record submitted in the same
iteration. -/
theorem pressed_released_disjoint (ready : Nat → Bool) (s : LoopState) (v : Nat)
    (hk : ∀ i, i < 10 → s.keys i < 256) (hl : ∀ i, i < 10 → s.lastKeys i < 256) :
    ¬ (v ∈ pressedKeys (submitted (detectIter ready) s) ∧
       v ∈ releasedKeys (submitted (detectIter ready) s)) := by
  rw [submitted_detectIter]
  rintro ⟨hp, hq⟩
  obtain ⟨j, hj, hm⟩ := mem_pressedKeys_flatMap _ _ v hp
  obtain ⟨e, _⟩ := mem_pressedKeys_slot ready s.keys s.lastKeys j v hm
  rw [u8_decode _ (hk j (List.mem_range.mp hj))] at e
  obtain ⟨i, hi, hm2⟩ := mem_releasedKeys_flatMap _ _ v hq
  obtain ⟨e2, hn⟩ := mem_releasedKeys_slot ready s.keys s.lastKeys i v hm2
  rw [u8_decode _ (hl i (List.mem_range.mp hi))] at e2
  exact hn ⟨j, List.mem_range.mp hj, by rw [← e2, e]⟩

/-- Previous keys 48, 45 and current keys 47, 45: 47 is pressed, 48 is
released, and neither list shares a key with the other. -/
theorem pressed_released_disjoint_witness :
    pressedKeys (submitted (detectIter fun _ => true)
      (mkState (bufOf [47, 45]) (bufOf [48, 45]))) = [47] ∧
    releasedKeys (submitted (detectIter fun _ => true)
      (mkState (bufOf [47, 45]) (bufOf [48, 45]))) = [48] ∧
    ¬ (47 ∈ pressedKeys (submitted (detectIter fun _ => true)
          (mkState (bufOf [47, 45]) (bufOf [48, 45]))) ∧
       47 ∈ releasedKeys (submitted (detectIter fun _ => true)
          (mkState (bufOf [47, 45]) (bufOf [48, 45])))) :=
  ⟨by decide, by decide,
   pressed_released_disjoint (fun _ => true) (mkState (bufOf [47, 45]) (bufOf [48, 45])) 47
     (by decide) (by decide)⟩

/-- C20 (first iteration after reset). With the uninitialised `lastKeys`
holding the byte 60 in slot 0, no key closed and the transport ready, the
first iteration submits the release record of key 60 (note 71). -/
theorem stale_release_after_reset :
    (List.range 10).map (scanKeys noKeyDown (bufOf []) 10).1.notes
      = [0, 0, 0, 0, 0, 0, 0, 0, 0, 0] ∧
    submitted (mainIter noKeyDown fun _ => true) (mkState (bufOf []) (bufOf [60]))
      = [[0x08, 0x80, 71, 0x00]] := by
  constructor <;> decide

theorem idsFrom_append (pinc : Nat → Nat → Nat) (ps qs : List (Nat × Nat)) (k : Nat) :
    idsFrom pinc (ps ++ qs) k = idsFrom pinc ps k ++ idsFrom pinc qs (k - ps.length) := by
  induction ps generalizing k with
  | nil => simp [idsFrom]
  | cons p ps ih =>
    show (if readsClosed pinc p = true then [k] else []) ++ idsFrom pinc (ps ++ qs) (k - 1)
      = ((if readsClosed pinc p = true then [k] else []) ++ idsFrom pinc ps (k - 1))
          ++ idsFrom pinc qs (k - (ps.length + 1))
    rw [ih, List.append_assoc, Nat.sub_sub, Nat.add_comm 1]

theorem update_getD (notes : Nat → Nat) (L : List Nat) (k size : Nat)
    (hn : ∀ a, a < size → notes a = L.getD a 0) (a : Nat) (ha : a < size) :
    Function.update notes L.length k a = (L ++ [k]).getD a 0 := by
  rcases Nat.lt_trichotomy a L.length with h | h | h
  · rw [Function.update_noteq (Nat.ne_of_lt h), hn a ha, List.getD_append _ _ _ _ h]
  · subst h
    rw [Function.update_same, List.getD_append_right _ _ _ _ (le_refl _), Nat.sub_self]
    rfl
  · rw [Function.update_noteq (Nat.ne_of_gt h), hn a ha,
      List.getD_eq_default _ _ (le_of_lt h), List.getD_eq_default]
    rw [List.length_append, List.length_singleton]
    omega

theorem rowLoop_spec (pinc : Nat → Nat → Nat) (size i : Nat) (js : List Nat)
    (s : ScanState) (L : List Nat)
    (hc : s.count = L.length) (hlt : L.length < size)
    (hn : ∀ a, a < size → s.notes a = L.getD a 0)
    (hk1 : js.length ≤ s.key) (hk2 : s.key ≤ 256) (hb : L.length + js.length < 256) :
    scanPost size (L ++ idsFrom pinc (js.map fun j => (i, j)) s.key) (s.key - js.length)
      (rowLoop pinc size i js s) := by
  induction js generalizing s L with
  | nil =>
    simp only [List.map_nil, idsFrom, List.append_nil, List.length_nil, Nat.sub_zero]
    exact ⟨hlt, hc, rfl, hn⟩
  | cons j js ih =>
    rw [List.length_cons] at hk1 hb
    have hkey : u8 (s.key + 255) = s.key - 1 := by unfold u8; omega
    have hcount : u8 (s.count + 1) = L.length + 1 := by rw [hc]; unfold u8; omega
    rw [rowLoop_cons, List.map_cons, idsFrom, List.length_cons]
    by_cases hp : pinc i j &&& (1 <<< j) ≠ 0
    · have hcl : readsClosed pinc (i, j) = true := by simp [readsClosed, hp]
      rw [if_pos hp, if_pos hcl]
      have hupd := update_getD s.notes L s.key size hn
      by_cases he : u8 (s.count + 1) = size
      · rw [if_pos he]
        have hsz : size = L.length + 1 := by rw [← he, hcount]
        refine ⟨?_, he, he, ?_⟩
        · simp only [List.length_append, List.length_singleton]; omega
        · intro a ha
          show Function.update s.notes s.count s.key a = _
          rw [hc, hupd a ha, ← List.append_assoc]
          refine (List.getD_append _ _ _ _ ?_).symm
          rw [List.length_append, List.length_singleton]; omega
      · rw [if_neg he]
        have h2 := ih
          { s with notes := Function.update s.notes s.count s.key
                   stores := s.stores ++ [(s.count, s.key)]
                   count := u8 (s.count + 1)
                   key := u8 (s.key + 255) }
          (L ++ [s.key])
          (by show u8 (s.count + 1) = _; rw [hcount, List.length_append, List.length_singleton])
          (by
            rw [List.length_append, List.length_singleton]
            rw [hcount] at he
            omega)
          (by
            intro a ha
            show Function.update s.notes s.count s.key a = _
            rw [hc]; exact hupd a ha)
          (by show js.length ≤ u8 (s.key + 255); rw [hkey]; omega)
          (by show u8 (s.key + 255) ≤ 256; rw [hkey]; omega)
          (by rw [List.length_append, List.length_singleton]; omega)
        have e2 : s.key - 1 - js.length = s.key - (js.length + 1) := by omega
        rw [← e2, ← hkey, ← List.append_assoc]
        exact h2
    · have hcl : ¬ readsClosed pinc (i, j) = true := by simp [readsClosed]; simpa using hp
      rw [if_neg hp, if_neg hcl]
      have h2 := ih { s with key := u8 (s.key + 255) } L hc hlt hn
        (by show js.length ≤ u8 (s.key + 255); rw [hkey]; omega)
        (by show u8 (s.key + 255) ≤ 256; rw [hkey]; omega)
        (by omega)
      have e2 : s.key - 1 - js.length = s.key - (js.length + 1) := by omega
      rw [← e2, ← hkey, List.nil_append]
      exact h2

theorem idsFrom_length_le (pinc : Nat → Nat → Nat) (ps : List (Nat × Nat)) (k : Nat) :
    (idsFrom pinc ps k).length ≤ ps.length := by
  induction ps generalizing k with
  | nil => simp [idsFrom]
  | cons p ps ih =>
    have := ih (k - 1)
    rw [idsFrom, List.length_append, List.length_cons]
    split_ifs <;> simp <;> omega

theorem scanPost_ret_append (size : Nat) (all more : List Nat) (k k2 : Nat) (s : ScanState)
    (c : Nat) (h : scanPost size all k (Flow.ret s c)) :
    scanPost size (all ++ more) k2 (Flow.ret s c) := by
  obtain ⟨h1, h2, h3, h4⟩ := h
  refine ⟨?_, h2, h3, ?_⟩
  · rw [List.length_append]; omega
  · intro a ha
    rw [h4 a ha]
    exact (List.getD_append _ _ _ _ (by omega)).symm

theorem colLoop_spec (pinc : Nat → Nat → Nat) (size : Nat) (cols : List Nat)
    (s : ScanState) (L : List Nat)
    (hc : s.count = L.length) (hlt : L.length < size)
    (hn : ∀ a, a < size → s.notes a = L.getD a 0)
    (hk1 : 6 * cols.length ≤ s.key) (hk2 : s.key ≤ 256)
    (hb : L.length + 6 * cols.length < 256) :
    scanPost size
      (L ++ idsFrom pinc (cols.flatMap fun i => [5, 4, 3, 2, 1, 0].map fun j => (i, j)) s.key)
      (s.key - 6 * cols.length) (colLoop pinc size cols s) := by
  induction cols generalizing s L with
  | nil =>
    simp only [List.flatMap_nil, idsFrom, List.append_nil, List.length_nil, Nat.mul_zero,
      Nat.sub_zero]
    exact ⟨hlt, hc, rfl, hn⟩
  | cons i cols ih =>
    rw [List.length_cons] at hk1 hb
    rw [colLoop_cons, List.flatMap_cons, idsFrom_append, ← List.append_assoc]
    have hr : scanPost size
        (L ++ idsFrom pinc ([5, 4, 3, 2, 1, 0].map fun j => (i, j)) s.key) (s.key - 6)
        (rowLoop pinc size i [5, 4, 3, 2, 1, 0]
          { s with porta := u8 (1 <<< i), portaLog := s.portaLog ++ [u8 (1 <<< i)] }) :=
      rowLoop_spec pinc size i [5, 4, 3, 2, 1, 0]
        { s with porta := u8 (1 <<< i), portaLog := s.portaLog ++ [u8 (1 <<< i)] } L hc hlt hn
        (by show 6 ≤ s.key; omega) hk2 (by show L.length + 6 < 256; omega)
    generalize rowLoop pinc size i [5, 4, 3, 2, 1, 0]
      { s with porta := u8 (1 <<< i), portaLog := s.portaLog ++ [u8 (1 <<< i)] } = r at hr
    have hlen := idsFrom_length_le pinc ([5, 4, 3, 2, 1, 0].map fun j => (i, j)) s.key
    rw [List.length_map] at hlen
    have h6 : [5, 4, 3, 2, 1, 0].length = 6 := rfl
    cases r with
    | next s2 =>
      obtain ⟨h1, h2, h3, h4⟩ := hr
      have h3' : s2.key = s.key - 6 := h3
      have := ih s2 _ h2 h1 h4 (by rw [h3']; omega) (by rw [h3']; omega)
        (by rw [List.length_append]; omega)
      rw [h3'] at this
      have e : s.key - 6 - 6 * cols.length = s.key - 6 * (cols.length + 1) := by omega
      rw [e] at this
      simpa only [List.length_map, h6] using this
    | ret s2 c =>
      exact scanPost_ret_append size _ _ _ _ s2 c hr

theorem idsFrom_eq_map (pinc : Nat → Nat → Nat) (ps : List (Nat × Nat)) (k : Nat)
    (h : ∀ n, n < ps.length → keyId (ps.getD n (0, 0)) = k - n) :
    idsFrom pinc ps k = (ps.filter (readsClosed pinc)).map keyId := by
  induction ps generalizing k with
  | nil => rfl
  | cons p ps ih =>
    have h0 : keyId p = k := h 0 (by simp)
    have ht : ∀ n, n < ps.length → keyId (ps.getD n (0, 0)) = k - 1 - n := by
      intro n hn
      have := h (n + 1) (by simp; omega)
      rw [List.getD_cons_succ] at this
      rw [this]; omega
    rw [idsFrom, ih (k - 1) ht, List.filter_cons]
    by_cases hp : readsClosed pinc p = true
    · simp [hp, h0]
    · simp [hp]

theorem idsFrom_scanOrder (pinc : Nat → Nat → Nat) :
    idsFrom pinc scanOrder 48 = closedIds pinc :=
  idsFrom_eq_map pinc scanOrder 48 (by decide)

theorem scanKeys_closed_form (pinc : Nat → Nat → Nat) (notes : Nat → Nat) (size : Nat)
    (h : 1 ≤ size) :
    (scanKeys pinc notes size).2 = min size (closedIds pinc).length ∧
    ∀ a, a < size → (scanKeys pinc notes size).1.notes a = (closedIds pinc).getD a 0 := by
  have hs := colLoop_spec pinc size (List.range 8) (scanInit notes size) [] rfl h
    (by intro a ha; simp [scanInit, ha]) (by simp [scanInit]) (by simp [scanInit])
    (by simp)
  have e : ([] : List Nat) ++ idsFrom pinc
      ((List.range 8).flatMap fun i => [5, 4, 3, 2, 1, 0].map fun j => (i, j))
      (scanInit notes size).key = closedIds pinc := idsFrom_scanOrder pinc
  rw [e] at hs
  unfold scanKeys
  generalize colLoop pinc size (List.range 8) (scanInit notes size) = r at hs
  cases r with
  | next s =>
    obtain ⟨h1, h2, _, h4⟩ := hs
    refine ⟨?_, h4⟩
    show s.count = _
    rw [h2]; omega
  | ret s c =>
    obtain ⟨h1, h2, _, h4⟩ := hs
    refine ⟨?_, h4⟩
    show c = _
    rw [h2]; omega

theorem closedIds_length (pinc : Nat → Nat → Nat) :
    (closedIds pinc).length = (scanOrder.filter (readsClosed pinc)).length := by
  unfold closedIds; rw [List.length_map]

theorem closedIds_getD (pinc : Nat → Nat → Nat) (a : Nat)
    (ha : a < (scanOrder.filter (readsClosed pinc)).length) :
    (closedIds pinc).getD a 0 = keyId ((scanOrder.filter (readsClosed pinc)).getD a (0, 0)) := by
  unfold closedIds
  rw [List.getD_eq_getElem _ _ (by rw [List.length_map]; exact ha), List.getD_eq_getElem _ _ ha,
    List.getElem_map]

theorem mem_scanOrder (p : Nat × Nat) : p ∈ scanOrder ↔ p.1 < 8 ∧ p.2 < 6 := by
  constructor
  · have h : ∀ q ∈ scanOrder, q.1 < 8 ∧ q.2 < 6 := by decide
    exact h p
  · rintro ⟨h1, h2⟩
    have h : ∀ i, i < 8 → ∀ j, j < 6 → (i, j) ∈ scanOrder := by decide
    exact h p.1 h1 p.2 h2

theorem keyId_bounds (p : Nat × Nat) (h : p ∈ scanOrder) : 1 ≤ keyId p ∧ keyId p ≤ 48 := by
  obtain ⟨h1, h2⟩ := (mem_scanOrder p).mp h
  unfold keyId
  omega

theorem keyId_injective (p q : Nat × Nat) (hp : p ∈ scanOrder) (hq : q ∈ scanOrder)
    (h : keyId p = keyId q) : p = q := by
  obtain ⟨h1, h2⟩ := (mem_scanOrder p).mp hp
  obtain ⟨h3, h4⟩ := (mem_scanOrder q).mp hq
  unfold keyId at h
  have e1 : p.1 = q.1 := by omega
  have e2 : p.2 = q.2 := by omega
  exact Prod.ext e1 e2

theorem keyId_surjective (k : Nat) (h1 : 1 ≤ k) (h2 : k ≤ 48) :
    ∃ p, p ∈ scanOrder ∧ keyId p = k := by
  refine ⟨((48 - k) / 6, 5 - (48 - k) % 6), ?_, ?_⟩
  · rw [mem_scanOrder]
    constructor
    · show (48 - k) / 6 < 8
      omega
    · show 5 - (48 - k) % 6 < 6
      omega
  · show 48 - (6 * ((48 - k) / 6) + (5 - (5 - (48 - k) % 6))) = k
    omega

theorem closedIds_pairwise (pinc : Nat → Nat → Nat) :
    (closedIds pinc).Pairwise fun x y => y < x := by
  have hs : (scanOrder.map keyId).Pairwise fun x y => y < x := by decide
  exact List.Pairwise.sublist ((List.filter_sublist _).map keyId) hs

theorem closedIds_bounds (pinc : Nat → Nat → Nat) (a : Nat) (ha : a < (closedIds pinc).length) :
    1 ≤ (closedIds pinc).getD a 0 ∧ (closedIds pinc).getD a 0 ≤ 48 := by
  rw [closedIds_length] at ha
  rw [closedIds_getD pinc a ha]
  apply keyId_bounds
  rw [List.getD_eq_getElem _ _ ha]
  exact (List.mem_filter.mp (List.getElem_mem _)).1

/-- C15 (Scenario 4, scanner result with truncation). For every `size >= 1`
and every pin reading, with `n` the number of positions that read closed in
scan order, `scanKeys` returns `min(size, n)`; the first `count` entries of the
buffer are the identifiers of the first `count` closed positions in scan
order and the entries from `count` to `size-1` are 0; when `n >= size` the
returned count is exactly `size`. -/
theorem scanner_truncation (pinc : Nat → Nat → Nat) (notes : Nat → Nat) (size : Nat)
    (h : 1 ≤ size) :
    (scanKeys pinc notes size).2 = min size (scanOrder.filter (readsClosed pinc)).length ∧
    (∀ a, a < (scanKeys pinc notes size).2 →
      (scanKeys pinc notes size).1.notes a
        = ((scanOrder.filter (readsClosed pinc)).map keyId).getD a 0) ∧
    (∀ a, (scanKeys pinc notes size).2 ≤ a → a < size →
      (scanKeys pinc notes size).1.notes a = 0) ∧
    (size ≤ (scanOrder.filter (readsClosed pinc)).length →
      (scanKeys pinc notes size).2 = size) := by
  obtain ⟨hc, hn⟩ := scanKeys_closed_form pinc notes size h
  rw [closedIds_length] at hc
  refine ⟨hc, ?_, ?_, ?_⟩
  · intro a ha
    exact hn a (by omega)
  · intro a ha hs
    rw [hn a hs]
    apply List.getD_eq_default
    rw [closedIds_length]
    omega
  · intro hle
    rw [hc]; omega

/-- All 48 positions closed and capacity 10: the scan returns 10 and the
buffer holds the keys 48..39 of the first ten positions. -/
theorem scanner_truncation_witness :
    (scanOrder.filter (readsClosed allKeysDown)).length = 48 ∧
    (scanKeys allKeysDown (bufOf []) 10).2 = 10 ∧
    (List.range 10).map (scanKeys allKeysDown (bufOf []) 10).1.notes
      = [48, 47, 46, 45, 44, 43, 42, 41, 40, 39] :=
  ⟨by decide,
   (scanner_truncation allKeysDown (bufOf []) 10 (by decide)).2.2.2 (by decide),
   by decide⟩

/-- C13 (key identifiers name matrix positions uniquely). For every pin
reading and `size >= 1`, entry `a` of the returned buffer, `a < count`, is
`48 - (6*i + (5 - j))` for the `a`-th closed position `(i, j)` in scan order;
the positions visited are those with `i` in 0..7 and `j` in 0..5; the map is
injective on them with range exactly 1..48; and the first `count` entries are
strictly decreasing. -/
theorem key_identifiers (pinc : Nat → Nat → Nat) (notes : Nat → Nat) (size : Nat)
    (h : 1 ≤ size) :
    (∀ a, a < (scanKeys pinc notes size).2 →
      (scanKeys pinc notes size).1.notes a
        = keyId ((scanOrder.filter (readsClosed pinc)).getD a (0, 0))) ∧
    (∀ i j, keyId (i, j) = 48 - (6 * i + (5 - j))) ∧
    (∀ p, p ∈ scanOrder ↔ p.1 < 8 ∧ p.2 < 6) ∧
    (∀ p q, p ∈ scanOrder → q ∈ scanOrder → keyId p = keyId q → p = q) ∧
    (∀ k, (∃ p, p ∈ scanOrder ∧ keyId p = k) ↔ 1 ≤ k ∧ k ≤ 48) ∧
    (∀ a b, a < b → b < (scanKeys pinc notes size).2 →
      (scanKeys pinc notes size).1.notes b < (scanKeys pinc notes size).1.notes a) := by
  obtain ⟨hc, hn⟩ := scanKeys_closed_form pinc notes size h
  refine ⟨?_, fun _ _ => rfl, mem_scanOrder, keyId_injective, ?_, ?_⟩
  · intro a ha
    rw [hn a (by omega)]
    apply closedIds_getD
    rw [← closedIds_length]; omega
  · intro k
    constructor
    · rintro ⟨p, hp, rfl⟩
      exact keyId_bounds p hp
    · rintro ⟨h1, h2⟩
      exact keyId_surjective k h1 h2
  · intro a b hab hb
    have hbl : b < (closedIds pinc).length := by omega
    have hal : a < (closedIds pinc).length := by omega
    rw [hn a (by omega), hn b (by omega), List.getD_eq_getElem _ _ hal,
      List.getD_eq_getElem _ _ hbl]
    exact List.pairwise_iff_getElem.mp (closedIds_pairwise pinc) a b hal hbl hab

/-- Ten keys 48..39 down: the buffer is strictly decreasing. -/
theorem key_identifiers_witness :
    (scanKeys tenKeysDown (bufOf []) 10).2 = 10 ∧
    (scanKeys tenKeysDown (bufOf []) 10).1.notes 9
      < (scanKeys tenKeysDown (bufOf []) 10).1.notes 0 :=
  ⟨by decide,
   (key_identifiers tenKeysDown (bufOf []) 10 (by decide)).2.2.2.2.2 0 9 (by decide)
     (by decide)⟩

/-- C18 (note numbers are valid MIDI data bytes). For every pin reading and
`size >= 1`, every identifier `k` in the first `count` entries of the buffer
satisfies `1 <= k <= 48`, so the byte `k + 11` does not wrap and lies in
12..59, below 128. -/
theorem note_bytes_valid (pinc : Nat → Nat → Nat) (notes : Nat → Nat) (size a : Nat)
    (h : 1 ≤ size) (ha : a < (scanKeys pinc notes size).2) :
    1 ≤ (scanKeys pinc notes size).1.notes a ∧
    (scanKeys pinc notes size).1.notes a ≤ 48 ∧
    u8 ((scanKeys pinc notes size).1.notes a + 11)
      = (scanKeys pinc notes size).1.notes a + 11 ∧
    12 ≤ u8 ((scanKeys pinc notes size).1.notes a + 11) ∧
    u8 ((scanKeys pinc notes size).1.notes a + 11) ≤ 59 ∧
    u8 ((scanKeys pinc notes size).1.notes a + 11) < 128 := by
  obtain ⟨hc, hn⟩ := scanKeys_closed_form pinc notes size h
  have hb := closedIds_bounds pinc a (by omega)
  rw [← hn a (by omega)] at hb
  obtain ⟨h1, h2⟩ := hb
  have hu : u8 ((scanKeys pinc notes size).1.notes a + 11)
      = (scanKeys pinc notes size).1.notes a + 11 := Nat.mod_eq_of_lt (by omega)
  rw [hu]
  exact ⟨h1, h2, rfl, by omega, by omega, by omega⟩

/-- All positions closed, capacity 10: entry 9 is key 39, note byte 50. -/
theorem note_bytes_valid_witness :
    (scanKeys allKeysDown (bufOf []) 10).1.notes 9 = 39 ∧
    u8 ((scanKeys allKeysDown (bufOf []) 10).1.notes 9 + 11) < 128 :=
  ⟨by decide,
   (note_bytes_valid allKeysDown (bufOf []) 10 9 (by decide) (by decide)).2.2.2.2.2⟩

/-- Every position closed and capacity 3: the scan returns in column 0, after
the writes 0x00, 0x01, 0x00; no key down: all eight columns are driven. -/
theorem drive_lines_example :
    (scanKeys allKeysDown (bufOf []) 3).1.portaLog = [0x00, 0x01, 0x00] ∧
    (scanKeys noKeyDown (bufOf []) 10).1.portaLog
      = [0x00, 0x01, 0x02, 0x04, 0x08, 0x10, 0x20, 0x40, 0x80, 0x00] := by
  constructor <;> decide

theorem pressedKeys_append (a b : List (List Nat)) :
    pressedKeys (a ++ b) = pressedKeys a ++ pressedKeys b := by
  simp [pressedKeys]

theorem releasedKeys_append (a b : List (List Nat)) :
    releasedKeys (a ++ b) = releasedKeys a ++ releasedKeys b := by
  simp [releasedKeys]

theorem pressedKeys_flatMap (l : List Nat) (g : Nat → List (List Nat)) :
    pressedKeys (l.flatMap g) = l.flatMap fun j => pressedKeys (g j) := by
  induction l with
  | nil => rfl
  | cons a as ih => rw [List.flatMap_cons, List.flatMap_cons, pressedKeys_append, ih]

theorem releasedKeys_flatMap (l : List Nat) (g : Nat → List (List Nat)) :
    releasedKeys (l.flatMap g) = l.flatMap fun j => releasedKeys (g j) := by
  induction l with
  | nil => rfl
  | cons a as ih => rw [List.flatMap_cons, List.flatMap_cons, releasedKeys_append, ih]

theorem pressedKeys_slot (ready : Nat → Bool) (keys lastKeys : Nat → Nat) (j : Nat)
    (hr : ready j = true) (hk : keys j < 256) :
    pressedKeys (slotPackets ready keys lastKeys j)
      = if occurs lastKeys (keys j) then [] else [keys j] := by
  have hd := u8_decode (keys j) hk
  unfold slotPackets slotPacket
  by_cases h1 : occurs keys (lastKeys j) <;> by_cases h2 : occurs lastKeys (keys j) <;>
    simp [hr, h1, h2, pressedKeys, records, releaseRecord, pressRecord, hd]

theorem releasedKeys_slot (ready : Nat → Bool) (keys lastKeys : Nat → Nat) (j : Nat)
    (hr : ready j = true) (hl : lastKeys j < 256) :
    releasedKeys (slotPackets ready keys lastKeys j)
      = if occurs keys (lastKeys j) then [] else [lastKeys j] := by
  have hd := u8_decode (lastKeys j) hl
  unfold slotPackets slotPacket
  by_cases h1 : occurs keys (lastKeys j) <;> by_cases h2 : occurs lastKeys (keys j) <;>
    simp [hr, h1, h2, releasedKeys, records, releaseRecord, pressRecord, hd]

theorem flatMap_comp (l : List Nat) (f : Nat → Nat) (P : Nat → List Nat)
    (g : Nat → List Nat) (h : ∀ j ∈ l, g j = P (f j)) :
    l.flatMap g = (l.map f).flatMap P := by
  induction l with
  | nil => rfl
  | cons a as ih =>
    rw [List.flatMap_cons, List.map_cons, List.flatMap_cons, h a (List.mem_cons_self _ _),
      ih fun j hj => h j (List.mem_cons_of_mem _ hj)]

theorem pressedKeys_iter (ready : Nat → Bool) (keys lastKeys : Nat → Nat)
    (hr : ∀ j, j < 10 → ready j = true) (hk : ∀ j, j < 10 → keys j < 256) :
    pressedKeys (iterPackets ready keys lastKeys)
      = ((List.range 10).map keys).flatMap fun v => if occurs lastKeys v then [] else [v] := by
  unfold iterPackets
  rw [pressedKeys_flatMap]
  apply flatMap_comp
  intro j hj
  have hj := List.mem_range.mp hj
  exact pressedKeys_slot ready keys lastKeys j (hr j hj) (hk j hj)

theorem releasedKeys_iter (ready : Nat → Bool) (keys lastKeys : Nat → Nat)
    (hr : ∀ j, j < 10 → ready j = true) (hl : ∀ j, j < 10 → lastKeys j < 256) :
    releasedKeys (iterPackets ready keys lastKeys)
      = ((List.range 10).map lastKeys).flatMap fun v => if occurs keys v then [] else [v] := by
  unfold iterPackets
  rw [releasedKeys_flatMap]
  apply flatMap_comp
  intro j hj
  have hj := List.mem_range.mp hj
  exact releasedKeys_slot ready keys lastKeys j (hr j hj) (hl j hj)

theorem range_map_bufOf (A : List Nat) (h : A.length ≤ 10) :
    (List.range 10).map (bufOf A) = A ++ List.replicate (10 - A.length) 0 := by
  apply List.ext_getElem
  · simp; omega
  · intro n h1 h2
    rw [List.getElem_map, List.getElem_range, List.getElem_append]
    unfold bufOf
    by_cases hn : n < A.length
    · rw [dif_pos hn, List.getD_eq_getElem _ _ hn]
    · rw [dif_neg hn, List.getElem_replicate, List.getD_eq_default _ _ (by omega)]

theorem occurs_bufOf (B : List Nat) (v : Nat) (hB : B.length ≤ 10) (hv : v ≠ 0) :
    occurs (bufOf B) v ↔ v ∈ B := by
  constructor
  · rintro ⟨i, _, e⟩
    unfold bufOf at e
    by_cases hi : i < B.length
    · rw [List.getD_eq_getElem _ _ hi] at e
      rw [← e]; exact List.getElem_mem _
    · rw [List.getD_eq_default _ _ (by omega)] at e
      exact absurd e.symm hv
  · intro hm
    obtain ⟨n, hn, e⟩ := List.getElem_of_mem hm
    refine ⟨n, by omega, ?_⟩
    unfold bufOf
    rw [List.getD_eq_getElem _ _ hn, e]

theorem occurs_bufOf_zero (B : List Nat) (hB : B.length < 10) : occurs (bufOf B) 0 :=
  ⟨B.length, hB, List.getD_eq_default _ _ (le_refl _)⟩

theorem bufOf_le (B : List Nat) (j : Nat) (h : ∀ b ∈ B, 1 ≤ b ∧ b ≤ 48) : bufOf B j ≤ 48 := by
  unfold bufOf
  by_cases hj : j < B.length
  · rw [List.getD_eq_getElem _ _ hj]
    exact (h _ (List.getElem_mem _)).2
  · rw [List.getD_eq_default _ _ (by omega)]
    omega

theorem flatMap_filter_bufOf (A B : List Nat) (hA : ∀ a ∈ A, 1 ≤ a ∧ a ≤ 48)
    (hB : B.length ≤ 10) :
    (A.flatMap fun v => if occurs (bufOf B) v then [] else [v])
      = A.filter fun a => decide (a ∉ B) := by
  induction A with
  | nil => rfl
  | cons a as ih =>
    have ha : a ≠ 0 := by have := (hA a (List.mem_cons_self _ _)).1; omega
    rw [List.flatMap_cons, ih fun x hx => hA x (List.mem_cons_of_mem _ hx), List.filter_cons]
    by_cases hm : a ∈ B
    · rw [if_pos ((occurs_bufOf B a hB ha).mpr hm)]
      simp [hm]
    · rw [if_neg (fun h => hm ((occurs_bufOf B a hB ha).mp h))]
      simp [hm]

theorem diff_bufOf (A B : List Nat) (hA : A.length < 10) (hB : B.length < 10)
    (hA1 : ∀ a ∈ A, 1 ≤ a ∧ a ≤ 48) :
    (((List.range 10).map (bufOf A)).flatMap fun v => if occurs (bufOf B) v then [] else [v])
      = A.filter fun a => decide (a ∉ B) := by
  rw [range_map_bufOf A (le_of_lt hA), List.flatMap_append,
    flatMap_filter_bufOf A B hA1 (le_of_lt hB)]
  have hz : ((List.replicate (10 - A.length) 0).flatMap
      fun v => if occurs (bufOf B) v then [] else [v]) = [] := by
    apply flatMap_eq_nil_of_forall
    intro a ha
    rw [List.eq_of_mem_replicate ha, if_pos (occurs_bufOf_zero B hB)]
  rw [hz, List.append_nil]

theorem count_filter_not_mem (A B : List Nat) (hAd : A.Nodup) (v : Nat) :
    (A.filter fun a => decide (a ∉ B)).count v = if v ∈ A ∧ v ∉ B then 1 else 0 := by
  by_cases hB : v ∈ B
  · rw [if_neg (fun h => h.2 hB)]
    apply List.count_eq_zero_of_not_mem
    intro hm
    have := (List.mem_filter.mp hm).2
    simp [hB] at this
  · rw [List.count_filter (by simp [hB])]
    by_cases hA : v ∈ A
    · rw [if_pos ⟨hA, hB⟩]
      exact List.count_eq_one_of_mem hAd hA
    · rw [if_neg (fun h => hA h.1)]
      exact List.count_eq_zero_of_not_mem hA

theorem records_slot_length (ready : Nat → Bool) (keys lastKeys : Nat → Nat) (j : Nat) :
    ((slotPackets ready keys lastKeys j).flatMap records).length
      = (pressedKeys (slotPackets ready keys lastKeys j)).length
        + (releasedKeys (slotPackets ready keys lastKeys j)).length := by
  unfold slotPackets slotPacket
  by_cases hr : ready j = true <;> by_cases h1 : occurs keys (lastKeys j) <;>
    by_cases h2 : occurs lastKeys (keys j) <;>
    simp [hr, h1, h2, pressedKeys, releasedKeys, records, releaseRecord, pressRecord]

theorem records_iter_length (ready : Nat → Bool) (keys lastKeys : Nat → Nat) :
    ((iterPackets ready keys lastKeys).flatMap records).length
      = (pressedKeys (iterPackets ready keys lastKeys)).length
        + (releasedKeys (iterPackets ready keys lastKeys)).length := by
  unfold iterPackets
  generalize List.range 10 = l
  induction l with
  | nil => rfl
  | cons a as ih =>
    rw [List.flatMap_cons, List.flatMap_append, pressedKeys_append, releasedKeys_append,
      List.length_append, List.length_append, List.length_append, ih, records_slot_length]
    omega

theorem mem_records_slot (ready : Nat → Bool) (keys lastKeys : Nat → Nat) (j : Nat)
    (r : List Nat) (h : r ∈ (slotPackets ready keys lastKeys j).flatMap records) :
    (r = releaseRecord (lastKeys j) ∧ ¬ occurs keys (lastKeys j)) ∨
    (r = pressRecord (keys j) ∧ ¬ occurs lastKeys (keys j)) := by
  unfold slotPackets slotPacket at h
  by_cases hr : ready j = true <;> by_cases h1 : occurs keys (lastKeys j) <;>
    by_cases h2 : occurs lastKeys (keys j) <;>
    simp [hr, h1, h2, records, releaseRecord, pressRecord] at h
  · exact Or.inr ⟨h, h2⟩
  · exact Or.inl ⟨h, h1⟩
  · rcases h with h | h
    · exact Or.inl ⟨h, h1⟩
    · exact Or.inr ⟨h, h2⟩

/-- C17 (exact diff below capacity). For lists `A` (current) and `B`
(previous) of distinct identifiers in 1..48 with fewer than 10 entries each,
stored zero-padded, and the transport ready at every slot: the keys of the
press records submitted are those of `A` not in `B`, each once; the keys of
the release records are those of `B` not in `A`, each once; every record
submitted is one of these; and no record has the note byte 11 of the
padding. -/
theorem exact_diff_below_capacity (ready : Nat → Bool) (s : LoopState) (A B : List Nat)
    (hA : A.length < 10) (hB : B.length < 10)
    (hA1 : ∀ a ∈ A, 1 ≤ a ∧ a ≤ 48) (hB1 : ∀ b ∈ B, 1 ≤ b ∧ b ≤ 48)
    (hAd : A.Nodup) (hBd : B.Nodup) (hr : ∀ j, j < 10 → ready j = true) :
    pressedKeys (submitted (detectIter ready) { s with keys := bufOf A, lastKeys := bufOf B })
      = A.filter (fun a => decide (a ∉ B)) ∧
    releasedKeys (submitted (detectIter ready) { s with keys := bufOf A, lastKeys := bufOf B })
      = B.filter (fun b => decide (b ∉ A)) ∧
    (∀ v, (pressedKeys (submitted (detectIter ready)
        { s with keys := bufOf A, lastKeys := bufOf B })).count v
      = if v ∈ A ∧ v ∉ B then 1 else 0) ∧
    (∀ v, (releasedKeys (submitted (detectIter ready)
        { s with keys := bufOf A, lastKeys := bufOf B })).count v
      = if v ∈ B ∧ v ∉ A then 1 else 0) ∧
    ((submitted (detectIter ready)
        { s with keys := bufOf A, lastKeys := bufOf B }).flatMap records).length
      = (A.filter (fun a => decide (a ∉ B))).length
        + (B.filter (fun b => decide (b ∉ A))).length ∧
    (∀ r, r ∈ (submitted (detectIter ready)
        { s with keys := bufOf A, lastKeys := bufOf B }).flatMap records →
      r.getD 2 0 ≠ 11) := by
  have hsub : submitted (detectIter ready) { s with keys := bufOf A, lastKeys := bufOf B }
      = iterPackets ready (bufOf A) (bufOf B) := submitted_detectIter ready _
  have hkA : ∀ j, j < 10 → bufOf A j < 256 := fun j _ => by
    have := bufOf_le A j hA1; omega
  have hkB : ∀ j, j < 10 → bufOf B j < 256 := fun j _ => by
    have := bufOf_le B j hB1; omega
  have hp : pressedKeys (iterPackets ready (bufOf A) (bufOf B))
      = A.filter (fun a => decide (a ∉ B)) := by
    rw [pressedKeys_iter ready _ _ hr hkA, diff_bufOf A B hA hB hA1]
  have hq : releasedKeys (iterPackets ready (bufOf A) (bufOf B))
      = B.filter (fun b => decide (b ∉ A)) := by
    rw [releasedKeys_iter ready _ _ hr hkB, diff_bufOf B A hB hA hB1]
  rw [hsub]
  refine ⟨hp, hq, ?_, ?_, ?_, ?_⟩
  · intro v
    rw [hp]; exact count_filter_not_mem A B hAd v
  · intro v
    rw [hq]; exact count_filter_not_mem B A hBd v
  · rw [records_iter_length, hp, hq]
  · intro r hr2
    rw [iterPackets, List.mem_flatMap] at hr2
    obtain ⟨p, hp2, hrp⟩ := hr2
    obtain ⟨j, _, hj⟩ := List.mem_flatMap.mp hp2
    have hm : r ∈ (slotPackets ready (bufOf A) (bufOf B) j).flatMap records :=
      List.mem_flatMap.mpr ⟨p, hj, hrp⟩
    rcases mem_records_slot ready (bufOf A) (bufOf B) j r hm with ⟨e, hn⟩ | ⟨e, hn⟩
    · intro h11
      apply hn
      have hle := bufOf_le B j hB1
      have hz : bufOf B j = 0 := by
        rw [e] at h11
        have h11' : u8 (bufOf B j + 11) = 11 := h11
        unfold u8 at h11'
        omega
      rw [hz]
      exact occurs_bufOf_zero A hA
    · intro h11
      apply hn
      have hle := bufOf_le A j hA1
      have hz : bufOf A j = 0 := by
        rw [e] at h11
        have h11' : u8 (bufOf A j + 11) = 11 := h11
        unfold u8 at h11'
        omega
      rw [hz]
      exact occurs_bufOf_zero B hB

/-- Previous keys 48, 45 and current keys 47, 45, transport ready: one press
record, of key 47, and one release record, of key 48. -/
theorem exact_diff_below_capacity_witness :
    pressedKeys (submitted (detectIter fun _ => true)
      (mkState (bufOf [47, 45]) (bufOf [48, 45]))) = [47] ∧
    releasedKeys (submitted (detectIter fun _ => true)
      (mkState (bufOf [47, 45]) (bufOf [48, 45]))) = [48] :=
  ⟨(exact_diff_below_capacity (fun _ => true) (mkState (bufOf []) (bufOf []))
      [47, 45] [48, 45] (by decide) (by decide) (by decide) (by decide) (by decide)
      (by decide) (fun _ _ => rfl)).1,
   (exact_diff_below_capacity (fun _ => true) (mkState (bufOf []) (bufOf []))
      [47, 45] [48, 45] (by decide) (by decide) (by decide) (by decide) (by decide)
      (by decide) (fun _ _ => rfl)).2.1⟩

theorem rowLoop_storesOk (pinc : Nat → Nat → Nat) (size i : Nat) (js : List Nat)
    (s : ScanState) (h : s.count < size) (hs : ∀ p ∈ s.stores, p.1 < size) :
    storesOk size (rowLoop pinc size i js s) := by
  induction js generalizing s with
  | nil => exact ⟨h, hs⟩
  | cons j js ih =>
    rw [rowLoop_cons]
    have hs2 : ∀ p ∈ s.stores ++ [(s.count, s.key)], p.1 < size := by
      intro p hp
      rcases List.mem_append.mp hp with hp | hp
      · exact hs p hp
      · rw [List.mem_singleton.mp hp]; exact h
    by_cases hp : pinc i j &&& (1 <<< j) ≠ 0
    · rw [if_pos hp]
      by_cases he : u8 (s.count + 1) = size
      · rw [if_pos he]
        exact hs2
      · rw [if_neg he]
        apply ih
        · have := u8_le (s.count + 1)
          show u8 (s.count + 1) < size
          omega
        · exact hs2
    · rw [if_neg hp]
      exact ih _ h hs

theorem colLoop_storesOk (pinc : Nat → Nat → Nat) (size : Nat) (cols : List Nat)
    (s : ScanState) (h : s.count < size) (hs : ∀ p ∈ s.stores, p.1 < size) :
    storesOk size (colLoop pinc size cols s) := by
  induction cols generalizing s with
  | nil => exact ⟨h, hs⟩
  | cons i cols ih =>
    rw [colLoop_cons]
    have hr := rowLoop_storesOk pinc size i [5, 4, 3, 2, 1, 0]
      { s with porta := u8 (1 <<< i), portaLog := s.portaLog ++ [u8 (1 <<< i)] } h hs
    generalize rowLoop pinc size i [5, 4, 3, 2, 1, 0]
      { s with porta := u8 (1 <<< i), portaLog := s.portaLog ++ [u8 (1 <<< i)] } = r at hr
    cases r with
    | next s2 => exact ih s2 hr.1 hr.2
    | ret s2 c => exact hr

/-- For `size >= 1` every store `notes[count]=key` of `scanKeys` is at an
index below `size`. -/
theorem stores_in_bounds (pinc : Nat → Nat → Nat) (notes : Nat → Nat) (size : Nat)
    (h : 1 ≤ size) : ∀ p ∈ (scanKeys pinc notes size).1.stores, p.1 < size := by
  have hc := colLoop_storesOk pinc size (List.range 8) (scanInit notes size) h
    (by intro p hp; simp [scanInit] at hp)
  unfold scanKeys
  generalize colLoop pinc size (List.range 8) (scanInit notes size) = r at hc
  cases r with
  | next s => exact hc.2
  | ret s c => exact hc

end MidiKeyboard
